import Mathlib

/-!
Verification of the Legion physical-instance manager core
(`runtime/legion/legion_instances.cc`).

The development shallowly embeds the relevant C++ into Lean:

* Field masks are natural numbers viewed as fixed-width bit sets of width
  `MAX_FIELDS = 2 ^ L` (the code is templated over `LOG2MAX = L`); shifts and
  complements are truncated to the width exactly as the `FieldMask` bit-set
  template does.
* `LayoutDescription::compress_mask` (Hacker's Delight 7-4 parallel
  bit-extract) is embedded operation by operation and proved equal to the
  positional specification `pext`.
* Layout descriptions, copy-offset computation, `meets_regions`, the
  instance-builder domain synthesis, manager destruction, deletion, and the
  reduction managers are embedded as executable functions; fatal
  `assert(false)` paths are modelled with `Except`.
-/

namespace LegionModel

/-! ## FieldMask primitives

`FieldMask` operations (`pop_count`, `find_index_set`) live in
`legion_utilities.h`, which is not part of the sources under review.
Modelled from the spec: §3 pins them down — "`FieldMask::pop_count(m)` equals
the cardinality of `{i : bit i set}`" and "`find_index_set(k)` returning the
position of the k-th set bit". -/

/-- Modelled from the spec: `FieldMask::pop_count` — the number of set bits
of a mask, here computed by binary recursion on the natural number. -/
def pop_count (n : Nat) : Nat :=
  if n = 0 then 0 else n % 2 + pop_count (n / 2)
termination_by n
decreasing_by exact Nat.div_lt_self (Nat.pos_of_ne_zero (by assumption)) one_lt_two

/-- Modelled from the spec: `FieldMask::find_index_set k` — the position of
the k-th set bit (ascending), by binary recursion. -/
def find_index_set (m k : Nat) : Nat :=
  if m = 0 then 0
  else if m % 2 = 1 then
    (if k = 0 then 0 else find_index_set (m / 2) (k - 1) + 1)
  else find_index_set (m / 2) k + 1
termination_by m
decreasing_by
  all_goals exact Nat.div_lt_self (Nat.pos_of_ne_zero (by assumption)) one_lt_two

/-- Positional specification of parallel bit-extract: the bits of `x` at the
set positions of `m`, packed into the low bits in ascending order.  This is
the reference function `compress_mask` is proved to implement. -/
def pext (x m : Nat) : Nat :=
  if m = 0 then 0
  else if m % 2 = 1 then x % 2 + 2 * pext (x / 2) (m / 2)
  else pext (x / 2) (m / 2)
termination_by m
decreasing_by
  all_goals exact Nat.div_lt_self (Nat.pos_of_ne_zero (by assumption)) one_lt_two

/-- Number of set bits of `m` strictly below position `p`. -/
def onesBelow (m : Nat) : Nat → Nat
  | 0 => 0
  | p + 1 => onesBelow m p + (if m.testBit p then 1 else 0)

/-- Number of clear bits of `m` strictly below position `p`. -/
def zerosBelow (m : Nat) : Nat → Nat
  | 0 => 0
  | p + 1 => zerosBelow m p + (if m.testBit p then 0 else 1)

theorem onesBelow_add_zerosBelow (m p : Nat) :
    onesBelow m p + zerosBelow m p = p := by
  induction p with
  | zero => rfl
  | succ p ih =>
    simp only [onesBelow, zerosBelow]
    by_cases h : m.testBit p <;> simp [h] <;> omega

theorem zerosBelow_le (m p : Nat) : zerosBelow m p ≤ p := by
  have := onesBelow_add_zerosBelow m p; omega

theorem zerosBelow_mono (m : Nat) {p q : Nat} (h : p ≤ q) :
    zerosBelow m p ≤ zerosBelow m q := by
  induction q with
  | zero => have : p = 0 := by omega
            subst this; exact le_refl _
  | succ q ih =>
    rcases Nat.lt_or_ge p (q + 1) with h' | h'
    · have := ih (by omega)
      simp only [zerosBelow]; omega
    · have : p = q + 1 := by omega
      subst this; exact le_refl _

theorem zerosBelow_sub_le (m : Nat) {p q : Nat} (h : p ≤ q) :
    zerosBelow m q ≤ zerosBelow m p + (q - p) := by
  induction q with
  | zero => have : p = 0 := by omega
            subst this; omega
  | succ q ih =>
    rcases Nat.lt_or_ge p (q + 1) with h' | h'
    · have := ih (by omega)
      simp only [zerosBelow]
      by_cases hb : m.testBit q <;> simp [hb] <;> omega
    · have : p = q + 1 := by omega
      subst this; omega

theorem onesBelow_mono (m : Nat) {p q : Nat} (h : p ≤ q) :
    onesBelow m p ≤ onesBelow m q := by
  induction q with
  | zero => have : p = 0 := by omega
            subst this; exact le_refl _
  | succ q ih =>
    rcases Nat.lt_or_ge p (q + 1) with h' | h'
    · have := ih (by omega)
      simp only [onesBelow]
      by_cases hb : m.testBit q <;> simp [hb] <;> omega
    · have : p = q + 1 := by omega
      subst this; exact le_refl _

theorem testBit_zero_iff (n : Nat) : n.testBit 0 = true ↔ n % 2 = 1 := by
  simp [Nat.testBit_zero]

theorem testBit_div_two (n j : Nat) : (n / 2).testBit j = n.testBit (j + 1) :=
  (Nat.testBit_succ n j).symm

theorem mod_two_of_testBit (n : Nat) :
    n % 2 = (if n.testBit 0 then 1 else 0) := by
  rcases Nat.mod_two_eq_zero_or_one n with h | h <;>
    simp [Nat.testBit_zero, h]

theorem onesBelow_succ_eq (m p : Nat) :
    onesBelow m (p + 1) =
      (if m.testBit 0 then 1 else 0) + onesBelow (m / 2) p := by
  induction p with
  | zero => simp [onesBelow]
  | succ p ih =>
    show onesBelow m (p + 1) + _ = _
    rw [ih]
    simp only [onesBelow, testBit_div_two]
    by_cases hb : m.testBit (p + 1)
    · simp [hb]
      omega
    · simp [hb]

theorem and_div_two (x m : Nat) : (x &&& m) / 2 = (x / 2) &&& (m / 2) := by
  apply Nat.eq_of_testBit_eq
  intro i
  simp only [testBit_div_two, Nat.testBit_and]

theorem and_mod_two (x m : Nat) :
    (x &&& m) % 2 = (if x.testBit 0 && m.testBit 0 then 1 else 0) := by
  rw [mod_two_of_testBit, Nat.testBit_and]

theorem pop_count_unfold (n : Nat) :
    pop_count n = n % 2 + pop_count (n / 2) := by
  by_cases h : n = 0
  · subst h; simp [pop_count]
  · rw [pop_count]; simp [h]

theorem pop_count_zero : pop_count 0 = 0 := by simp [pop_count]

theorem pop_count_pos_ne_zero {n : Nat} (h : 0 < pop_count n) : n ≠ 0 := by
  intro hn; subst hn; simp [pop_count_zero] at h

/-- `pext` agrees with `x &&& m` in total bit count. -/
theorem pop_count_pext (m : Nat) :
    ∀ x, pop_count (pext x m) = pop_count (x &&& m) := by
  induction m using Nat.strong_induction_on with
  | _ m ih =>
    intro x
    by_cases h0 : m = 0
    · subst h0
      simp [pext, Nat.and_zero]
    · have hlt : m / 2 < m := Nat.div_lt_self (Nat.pos_of_ne_zero h0) one_lt_two
      rw [pext]
      simp only [h0, if_false]
      by_cases hodd : m % 2 = 1
      · simp only [hodd, if_true]
        have hx : x % 2 + 2 * pext (x / 2) (m / 2) = x % 2 + 2 * pext (x / 2) (m / 2) := rfl
        rw [pop_count_unfold (x % 2 + 2 * pext (x / 2) (m / 2))]
        have h1 : (x % 2 + 2 * pext (x / 2) (m / 2)) % 2 = x % 2 := by omega
        have h2 : (x % 2 + 2 * pext (x / 2) (m / 2)) / 2 = pext (x / 2) (m / 2) := by omega
        rw [h1, h2, ih _ hlt, pop_count_unfold (x &&& m), and_div_two,
          and_mod_two]
        have hm0 : m.testBit 0 = true := by rw [testBit_zero_iff]; exact hodd
        rw [hm0, mod_two_of_testBit x]
        by_cases hx0 : x.testBit 0 <;> simp [hx0]
      · simp only [hodd, if_false]
        rw [ih _ hlt, pop_count_unfold (x &&& m), and_div_two, and_mod_two]
        have hm0 : m.testBit 0 = false := by
          rcases Nat.mod_two_eq_zero_or_one m with h | h
          · simp [Nat.testBit_zero, h]
          · exact absurd h hodd
        rw [hm0]
        simp

/-- `pext x m` fits in `pop_count m` bits. -/
theorem pext_lt_two_pow (m : Nat) :
    ∀ x, pext x m < 2 ^ pop_count m := by
  induction m using Nat.strong_induction_on with
  | _ m ih =>
    intro x
    by_cases h0 : m = 0
    · subst h0; simp [pext, pop_count_zero]
    · have hlt : m / 2 < m := Nat.div_lt_self (Nat.pos_of_ne_zero h0) one_lt_two
      have ihh := ih _ hlt (x / 2)
      rw [pext, pop_count_unfold m]
      simp only [h0, if_false]
      by_cases hodd : m % 2 = 1
      · simp only [hodd, if_true]
        have : 2 ^ (1 + pop_count (m / 2)) = 2 * 2 ^ pop_count (m / 2) := by
          ring
        rw [this]
        omega
      · have h2 : m % 2 = 0 := by omega
        simp only [hodd, if_false, h2, Nat.zero_add]
        exact ihh

/-- The k-th set-bit position of `n` is indeed a set bit. -/
theorem testBit_find_index_set (n : Nat) :
    ∀ k, k < pop_count n → n.testBit (find_index_set n k) = true := by
  induction n using Nat.strong_induction_on with
  | _ n ih =>
    intro k hk
    by_cases h0 : n = 0
    · subst h0; rw [pop_count_zero] at hk; omega
    · have hlt : n / 2 < n := Nat.div_lt_self (Nat.pos_of_ne_zero h0) one_lt_two
      rw [find_index_set]
      simp only [h0, if_false]
      by_cases hodd : n % 2 = 1
      · simp only [hodd, if_true]
        by_cases hk0 : k = 0
        · simp [hk0, testBit_zero_iff, hodd]
        · simp only [hk0, if_false]
          rw [← testBit_div_two]
          apply ih _ hlt
          rw [pop_count_unfold n, hodd] at hk
          omega
      · simp only [hodd, if_false]
        rw [← testBit_div_two]
        apply ih _ hlt
        have h2 : n % 2 = 0 := by omega
        rw [pop_count_unfold n, h2] at hk
        omega

theorem find_index_set_lt {n w k : Nat} (hn : n < 2 ^ w)
    (hk : k < pop_count n) : find_index_set n k < w := by
  by_contra h
  push_neg at h
  have hbit := testBit_find_index_set n k hk
  have : n < 2 ^ find_index_set n k :=
    lt_of_lt_of_le hn (Nat.pow_le_pow_right (by omega) h)
  rw [Nat.testBit_eq_false_of_lt this] at hbit
  exact absurd hbit (by simp)

theorem onesBelow_one (m : Nat) :
    onesBelow m 1 = if m.testBit 0 then 1 else 0 := by
  simp [onesBelow]

theorem low_bit_testBit_zero (x y : Nat) :
    (x % 2 + 2 * y).testBit 0 = x.testBit 0 := by
  rw [Nat.testBit_zero, Nat.testBit_zero]
  have h : (x % 2 + 2 * y) % 2 = x % 2 := by omega
  rw [h]

theorem low_bit_testBit_succ (x y j : Nat) :
    (x % 2 + 2 * y).testBit (j + 1) = y.testBit j := by
  rw [Nat.testBit_succ]
  have h : (x % 2 + 2 * y) / 2 = y := by omega
  rw [h]

theorem onesBelow_succ_true {m : Nat} (h : m.testBit 0 = true) (p : Nat) :
    onesBelow m (p + 1) = onesBelow (m / 2) p + 1 := by
  rw [onesBelow_succ_eq, h]
  simp [Nat.add_comm]

theorem onesBelow_succ_false {m : Nat} (h : m.testBit 0 = false) (p : Nat) :
    onesBelow m (p + 1) = onesBelow (m / 2) p := by
  rw [onesBelow_succ_eq, h]
  simp

theorem find_index_set_zero_odd {n : Nat} (h : n % 2 = 1) :
    find_index_set n 0 = 0 := by
  rw [find_index_set]
  simp [show n ≠ 0 by omega, h]

theorem find_index_set_succ_odd {n : Nat} (h : n % 2 = 1) (k : Nat) :
    find_index_set n (k + 1) = find_index_set (n / 2) k + 1 := by
  rw [find_index_set]
  simp [show n ≠ 0 by omega, h]

theorem find_index_set_even {n : Nat} (hn : n ≠ 0) (h : n % 2 = 0) (k : Nat) :
    find_index_set n k = find_index_set (n / 2) k + 1 := by
  rw [find_index_set]
  simp [hn, show ¬ n % 2 = 1 by omega]

theorem pext_odd {m : Nat} (h : m % 2 = 1) (x : Nat) :
    pext x m = x % 2 + 2 * pext (x / 2) (m / 2) := by
  rw [pext]
  simp [show m ≠ 0 by omega, h]

theorem pext_even {m : Nat} (hm : m ≠ 0) (h : m % 2 = 0) (x : Nat) :
    pext x m = pext (x / 2) (m / 2) := by
  rw [pext]
  simp [hm, show ¬ m % 2 = 1 by omega]

/-- Positional characterization of `pext`: bit `j` of the result is the bit
of `x` sitting at the set position of `m` of rank `j`. -/
theorem pext_testBit (m : Nat) :
    ∀ x j, ((pext x m).testBit j = true ↔
      ∃ p, m.testBit p = true ∧ x.testBit p = true ∧ onesBelow m p = j) := by
  induction m using Nat.strong_induction_on with
  | _ m ih =>
    intro x j
    by_cases h0 : m = 0
    · subst h0
      simp [pext, Nat.zero_testBit]
    · have hlt : m / 2 < m := Nat.div_lt_self (Nat.pos_of_ne_zero h0) one_lt_two
      by_cases hodd : m % 2 = 1
      · have hm0 : m.testBit 0 = true := (testBit_zero_iff m).mpr hodd
        rw [pext_odd hodd]
        cases j with
        | zero =>
          rw [low_bit_testBit_zero]
          constructor
          · intro h
            exact ⟨0, hm0, h, rfl⟩
          · rintro ⟨p, hp, hxp, hones⟩
            rcases Nat.eq_zero_or_pos p with hp0 | hp0
            · subst hp0; exact hxp
            · exfalso
              have h1 : (1 : Nat) ≤ onesBelow m p := by
                have h2 := onesBelow_mono m hp0
                rw [onesBelow_one] at h2
                simp [hm0] at h2
                exact h2
              omega
        | succ j' =>
          rw [low_bit_testBit_succ, ih _ hlt]
          constructor
          · rintro ⟨p', hp', hxp', hones'⟩
            refine ⟨p' + 1, ?_, ?_, ?_⟩
            · rw [← testBit_div_two]; exact hp'
            · rw [← testBit_div_two]; exact hxp'
            · rw [onesBelow_succ_true hm0, hones']
          · rintro ⟨p, hp, hxp, hones⟩
            cases p with
            | zero => simp [onesBelow] at hones
            | succ p' =>
              rw [onesBelow_succ_true hm0] at hones
              exact ⟨p', by rw [testBit_div_two]; exact hp,
                by rw [testBit_div_two]; exact hxp, by omega⟩
      · have hm0 : m.testBit 0 = false := by
          rcases Nat.mod_two_eq_zero_or_one m with h | h
          · simp [Nat.testBit_zero, h]
          · exact absurd h hodd
        rw [pext_even h0 (by omega), ih _ hlt]
        constructor
        · rintro ⟨p', hp', hxp', hones'⟩
          refine ⟨p' + 1, ?_, ?_, ?_⟩
          · rw [← testBit_div_two]; exact hp'
          · rw [← testBit_div_two]; exact hxp'
          · rw [onesBelow_succ_false hm0, hones']
        · rintro ⟨p, hp, hxp, hones⟩
          cases p with
          | zero => rw [hm0] at hp; exact absurd hp (by simp)
          | succ p' =>
            rw [onesBelow_succ_false hm0] at hones
            exact ⟨p', by rw [testBit_div_two]; exact hp,
              by rw [testBit_div_two]; exact hxp, hones⟩

/-- The k-th set bit of `pext x m`, read through the numbering induced by
`m`, is the k-th set bit of `x &&& m`. -/
theorem find_index_set_pext (m : Nat) :
    ∀ x k, k < pop_count (x &&& m) →
      find_index_set m (find_index_set (pext x m) k) =
        find_index_set (x &&& m) k := by
  induction m using Nat.strong_induction_on with
  | _ m ih =>
    intro x k hk
    by_cases h0 : m = 0
    · subst h0
      rw [Nat.and_zero, pop_count_zero] at hk
      omega
    · have hlt : m / 2 < m := Nat.div_lt_self (Nat.pos_of_ne_zero h0) one_lt_two
      have hA : x &&& m ≠ 0 := pop_count_pos_ne_zero (by omega)
      have hAdiv : (x &&& m) / 2 = (x / 2) &&& (m / 2) := and_div_two x m
      by_cases hodd : m % 2 = 1
      · have hm0 : m.testBit 0 = true := (testBit_zero_iff m).mpr hodd
        by_cases hx0 : x.testBit 0
        · -- both bit 0 of x and of m set: bit 0 of x&&&m set
          have hA0 : (x &&& m) % 2 = 1 := by
            rw [and_mod_two, hx0, hm0]; rfl
          have hxm2 : x % 2 = 1 := (testBit_zero_iff x).mp hx0
          have hpe : pext x m = 1 + 2 * pext (x / 2) (m / 2) := by
            rw [pext_odd hodd, hxm2]
          have hpodd : pext x m % 2 = 1 := by rw [hpe]; omega
          have hpdiv : pext x m / 2 = pext (x / 2) (m / 2) := by rw [hpe]; omega
          cases k with
          | zero =>
            rw [find_index_set_zero_odd hpodd, find_index_set_zero_odd hodd,
              find_index_set_zero_odd hA0]
          | succ k' =>
            have hk' : k' < pop_count ((x / 2) &&& (m / 2)) := by
              rw [pop_count_unfold (x &&& m), hA0, hAdiv] at hk
              omega
            rw [find_index_set_succ_odd hpodd, hpdiv,
              find_index_set_succ_odd hodd, find_index_set_succ_odd hA0, hAdiv,
              ih _ hlt _ _ hk']
        · -- m bit 0 set but x bit 0 clear: x&&&m even
          have hx0' : x.testBit 0 = false := by
            cases h : x.testBit 0
            · rfl
            · exact absurd h hx0
          have hA0 : (x &&& m) % 2 = 0 := by
            rw [and_mod_two, hx0']
            rfl
          have hxm2 : x % 2 = 0 := by
            rw [mod_two_of_testBit, hx0']
            simp
          have hpe : pext x m = 2 * pext (x / 2) (m / 2) := by
            rw [pext_odd hodd, hxm2]
            omega
          have hk' : k < pop_count ((x / 2) &&& (m / 2)) := by
            rw [pop_count_unfold (x &&& m), hA0, hAdiv] at hk
            omega
          have hPne : pext x m ≠ 0 := by
            apply pop_count_pos_ne_zero
            rw [pop_count_pext]
            omega
          have hpev : pext x m % 2 = 0 := by rw [hpe]; omega
          have hpdiv : pext x m / 2 = pext (x / 2) (m / 2) := by rw [hpe]; omega
          rw [find_index_set_even hPne hpev, hpdiv,
            find_index_set_succ_odd hodd,
            find_index_set_even hA hA0, hAdiv,
            ih _ hlt _ _ hk']
      · -- m even
        have hm0 : m.testBit 0 = false := by
          rcases Nat.mod_two_eq_zero_or_one m with h | h
          · simp [Nat.testBit_zero, h]
          · exact absurd h hodd
        have hA0 : (x &&& m) % 2 = 0 := by
          rw [and_mod_two, hm0]
          simp
        have hpe : pext x m = pext (x / 2) (m / 2) := pext_even h0 (by omega) x
        have hk' : k < pop_count ((x / 2) &&& (m / 2)) := by
          rw [pop_count_unfold (x &&& m), hA0, hAdiv] at hk
          omega
        rw [hpe, find_index_set_even h0 (by omega),
          find_index_set_even hA hA0, hAdiv,
          ih _ hlt _ _ hk']

/-! ## The `compress_mask` algorithm

Embedding of `LayoutDescription::compress_mask<LOG2MAX>` from
`legion_instances.cc:177-197`.  A `FieldMask` of `MAX_FIELDS = 2 ^ L` bits is
a natural number below `2 ^ 2 ^ L`; `<<` and `~` truncate to the width as the
fixed-size bit-set template does. -/

/-- Width-truncating left shift on `FieldMask`s of width `2 ^ L`. -/
def fmShl (L a k : Nat) : Nat := (a <<< k) % 2 ^ 2 ^ L

/-- Width-truncating complement on `FieldMask`s of width `2 ^ L`. -/
def fmNot (L a : Nat) : Nat := (2 ^ 2 ^ L - 1) ^^^ a

/-- The inner loop computing `mp` from `mk`:
`mp = mk ^ (mk << 1); for (idx = 1; idx < LOG2MAX; idx++) mp = mp ^ (mp << (1 << idx));`. -/
def compressMp (L mk : Nat) : Nat :=
  (List.range (L - 1)).foldl (fun mp idx => mp ^^^ fmShl L mp (2 ^ (idx + 1)))
    (mk ^^^ fmShl L mk 1)

/-- Loop state of `compress_mask`: the variables `x`, `m`, `mk` of the source. -/
structure CompressState where
  ofParts ::
  x : Nat
  m : Nat
  mk : Nat
deriving Repr, DecidableEq

/-- One iteration of the outer loop of `compress_mask` (loop counter `i`):
`mv = mp & m; m = (m ^ mv) | (mv >> (1 << i)); t = x & mv;
x = (x ^ t) | (t >> (1 << i)); mk = mk & ~mp;`. -/
def compressStep (L i : Nat) (s : CompressState) : CompressState :=
  let mp := compressMp L s.mk
  let mv := mp &&& s.m
  let t := s.x &&& mv
  { x := (s.x ^^^ t) ||| (t >>> 2 ^ i)
    m := (s.m ^^^ mv) ||| (mv >>> 2 ^ i)
    mk := s.mk &&& fmNot L mp }

/-- `LayoutDescription::compress_mask<LOG2MAX>(x, m)` with `LOG2MAX = L`:
`x = x & m; mk = ~m << 1;` followed by `L` iterations of the outer loop;
the compressed result is the final `x`. -/
def compress_mask (L x m : Nat) : Nat :=
  ((List.range L).foldl (fun s i => compressStep L i s)
    { x := x &&& m, m := m, mk := fmShl L (fmNot L m) 1 }).x

theorem fmShl_testBit (L a k j : Nat) :
    (fmShl L a k).testBit j =
      (decide (j < 2 ^ L) && (decide (j ≥ k) && a.testBit (j - k))) := by
  rw [fmShl, Nat.testBit_mod_two_pow, Nat.testBit_shiftLeft]

theorem fmShl_lt (L a k : Nat) : fmShl L a k < 2 ^ 2 ^ L :=
  Nat.mod_lt _ (Nat.pos_pow_of_pos _ (by omega))

theorem fmNot_testBit (L a j : Nat) :
    (fmNot L a).testBit j = (decide (j < 2 ^ L) ^^ a.testBit j) := by
  rw [fmNot, Nat.testBit_xor, Nat.testBit_two_pow_sub_one]

theorem fmNot_lt (L : Nat) {a : Nat} (ha : a < 2 ^ 2 ^ L) :
    fmNot L a < 2 ^ 2 ^ L :=
  Nat.xor_lt_two_pow (by omega) ha

theorem testBit_lt_width {a w p : Nat} (ha : a < 2 ^ w)
    (h : a.testBit p = true) : p < w := by
  by_contra hc
  push_neg at hc
  have : a < 2 ^ p := lt_of_lt_of_le ha (Nat.pow_le_pow_right (by omega) hc)
  rw [Nat.testBit_eq_false_of_lt this] at h
  exact absurd h (by simp)

theorem shiftRight_lt {a w : Nat} (ha : a < 2 ^ w) (k : Nat) :
    a >>> k < 2 ^ w := by
  rw [Nat.shiftRight_eq_div_pow]
  exact lt_of_le_of_lt (Nat.div_le_self _ _) ha

/-- Prefix of the inner `mp` loop: after `s` of the `L - 1` doubling steps. -/
def mpAux (L mk s : Nat) : Nat :=
  (List.range s).foldl (fun mp idx => mp ^^^ fmShl L mp (2 ^ (idx + 1)))
    (mk ^^^ fmShl L mk 1)

theorem compressMp_eq_mpAux (L mk : Nat) :
    compressMp L mk = mpAux L mk (L - 1) := rfl

theorem mpAux_succ (L mk s : Nat) :
    mpAux L mk (s + 1) =
      mpAux L mk s ^^^ fmShl L (mpAux L mk s) (2 ^ (s + 1)) := by
  simp [mpAux, List.range_succ]

theorem mpAux_lt (L s : Nat) {mk : Nat} (hmk : mk < 2 ^ 2 ^ L) :
    mpAux L mk s < 2 ^ 2 ^ L := by
  induction s with
  | zero => exact Nat.xor_lt_two_pow hmk (fmShl_lt L mk 1)
  | succ s ih =>
    rw [mpAux_succ]
    exact Nat.xor_lt_two_pow ih (fmShl_lt L _ _)

theorem decide_parity_add (a b : Nat) :
    decide ((a + b) % 2 = 1) = (decide (a % 2 = 1) ^^ decide (b % 2 = 1)) := by
  by_cases h1 : a % 2 = 1 <;> by_cases h2 : b % 2 = 1 <;>
    simp [h1, h2] <;> omega

/-- After `s` doubling steps `mp` holds, at each position `j`, the parity of
the count of `mk`-bits in the window of width `2 ^ (s + 1)` ending at `j`. -/
theorem mpAux_testBit (L mk : Nat) :
    ∀ s j, j < 2 ^ L →
      (mpAux L mk s).testBit j =
        decide ((onesBelow mk (j + 1) -
          onesBelow mk (j + 1 - 2 ^ (s + 1))) % 2 = 1) := by
  intro s
  induction s with
  | zero =>
    intro j hj
    show (mk ^^^ fmShl L mk 1).testBit j = _
    rw [Nat.testBit_xor, fmShl_testBit]
    cases j with
    | zero =>
      have h1 : onesBelow mk (0 + 1 - 2 ^ (0 + 1)) = 0 := by
        norm_num [onesBelow]
      rw [h1]
      cases hb : mk.testBit 0 <;> simp [onesBelow, hb]
    | succ j' =>
      have hsum : onesBelow mk (j' + 1 + 1) - onesBelow mk (j' + 1 + 1 - 2 ^ (0 + 1)) =
          (if mk.testBit j' then 1 else 0) +
            (if mk.testBit (j' + 1) then 1 else 0) := by
        have e : j' + 1 + 1 - 2 ^ (0 + 1) = j' := by omega
        rw [e]
        simp only [onesBelow]
        omega
      rw [hsum]
      have e1 : j' + 1 - 1 = j' := by omega
      rw [e1]
      cases hb : mk.testBit j' <;> cases hb2 : mk.testBit (j' + 1) <;>
        simp [hb, hb2, hj]
  | succ s ih =>
    intro j hj
    rw [mpAux_succ, Nat.testBit_xor, fmShl_testBit, ih j hj]
    have hpow : (2 : Nat) ^ (s + 1 + 1) = 2 ^ (s + 1) + 2 ^ (s + 1) := by ring
    have hle : (2 : Nat) ^ (s + 1) ≤ 2 ^ (s + 1 + 1) := by
      rw [hpow]; exact Nat.le_add_left _ _
    by_cases hjW : j ≥ 2 ^ (s + 1)
    · have hj' : j - 2 ^ (s + 1) < 2 ^ L :=
        lt_of_le_of_lt (Nat.sub_le _ _) hj
      rw [ih _ hj']
      have e1 : j - 2 ^ (s + 1) + 1 = j + 1 - 2 ^ (s + 1) := by omega
      have e2 : j + 1 - 2 ^ (s + 1) - 2 ^ (s + 1) = j + 1 - 2 ^ (s + 1 + 1) := by
        rw [Nat.sub_sub, ← hpow]
      rw [e1, e2]
      have hca : onesBelow mk (j + 1 - 2 ^ (s + 1 + 1)) ≤
          onesBelow mk (j + 1 - 2 ^ (s + 1)) :=
        onesBelow_mono mk (Nat.sub_le_sub_left hle (j + 1))
      have hba : onesBelow mk (j + 1 - 2 ^ (s + 1)) ≤ onesBelow mk (j + 1) :=
        onesBelow_mono mk (by omega)
      have key : (onesBelow mk (j + 1) - onesBelow mk (j + 1 - 2 ^ (s + 1))) +
          (onesBelow mk (j + 1 - 2 ^ (s + 1)) -
            onesBelow mk (j + 1 - 2 ^ (s + 1 + 1))) =
          onesBelow mk (j + 1) - onesBelow mk (j + 1 - 2 ^ (s + 1 + 1)) := by
        omega
      rw [← key, decide_parity_add]
      simp [hj, hjW]
    · have h2 : j + 1 - 2 ^ (s + 1) = 0 := by omega
      have h3 : j + 1 - 2 ^ (s + 1 + 1) = 0 := by omega
      rw [h2, h3]
      simp [hjW]

/-- The full inner loop computes the prefix parity of `mk` below each
in-width position. -/
theorem compressMp_testBit (L : Nat) (hL : 1 ≤ L) (mk : Nat) {j : Nat}
    (hj : j < 2 ^ L) :
    (compressMp L mk).testBit j = decide (onesBelow mk (j + 1) % 2 = 1) := by
  rw [compressMp_eq_mpAux, mpAux_testBit L mk (L - 1) j hj]
  have e : L - 1 + 1 = L := by omega
  rw [e]
  have h0 : j + 1 - 2 ^ L = 0 := by omega
  rw [h0]
  simp [onesBelow]

theorem compressMp_lt (L : Nat) {mk : Nat} (hmk : mk < 2 ^ 2 ^ L) :
    compressMp L mk < 2 ^ 2 ^ L := by
  rw [compressMp_eq_mpAux]
  exact mpAux_lt L (L - 1) hmk

theorem mod_mul_split (a b c : Nat) (hb : 0 < b) (hc : 0 < c) :
    a % (b * c) = a % b + b * (a / b % c) := by
  conv_lhs => rw [← Nat.div_add_mod a b]
  rw [Nat.add_mod, Nat.mul_mod_mul_left]
  have h1 : a % b < b := Nat.mod_lt _ hb
  have h2 : a / b % c < c := Nat.mod_lt _ hc
  have h3 : a % b % (b * c) = a % b :=
    Nat.mod_eq_of_lt (lt_of_lt_of_le h1 (Nat.le_mul_of_pos_right b hc))
  rw [h3]
  have hlt : b * (a / b % c) + a % b < b * c :=
    calc b * (a / b % c) + a % b < b * (a / b % c) + b := by omega
      _ = b * (a / b % c + 1) := by ring
      _ ≤ b * c := Nat.mul_le_mul_left b (by omega)
  rw [Nat.mod_eq_of_lt hlt, Nat.add_comm]

theorem mod_two_pow_succ (z i : Nat) :
    z % 2 ^ (i + 1) = z % 2 ^ i + 2 ^ i * (z / 2 ^ i % 2) := by
  rw [Nat.pow_succ]
  exact mod_mul_split z (2 ^ i) 2 (Nat.pos_pow_of_pos _ (by omega)) (by omega)

theorem dvd_pow_succ_iff (z i : Nat) :
    2 ^ (i + 1) ∣ z ↔ (2 ^ i ∣ z ∧ z.testBit i = false) := by
  have hip : 0 < 2 ^ i := Nat.pos_pow_of_pos _ (by omega)
  have hip1 : 0 < 2 ^ (i + 1) := Nat.pos_pow_of_pos _ (by omega)
  rw [Nat.dvd_iff_mod_eq_zero, Nat.dvd_iff_mod_eq_zero,
    mod_two_pow_succ, Nat.testBit_to_div_mod]
  rcases Nat.mod_two_eq_zero_or_one (z / 2 ^ i) with h | h
  · simp [h]
  · simp [h]

theorem zdiv_move (m0 i p : Nat) :
    zerosBelow m0 (p - zerosBelow m0 p % 2 ^ i) / 2 ^ i =
      zerosBelow m0 p / 2 ^ i := by
  have hip : 0 < 2 ^ i := Nat.pos_pow_of_pos _ (by omega)
  have hzp : zerosBelow m0 p ≤ p := zerosBelow_le m0 p
  have hrz : zerosBelow m0 p % 2 ^ i ≤ zerosBelow m0 p := Nat.mod_le _ _
  have hcle : p - zerosBelow m0 p % 2 ^ i ≤ p := Nat.sub_le _ _
  have h1 : zerosBelow m0 (p - zerosBelow m0 p % 2 ^ i) ≤ zerosBelow m0 p :=
    zerosBelow_mono m0 hcle
  have h2 := zerosBelow_sub_le m0 hcle
  have h3 : p - (p - zerosBelow m0 p % 2 ^ i) = zerosBelow m0 p % 2 ^ i := by
    omega
  rw [h3] at h2
  have hd := Nat.div_add_mod (zerosBelow m0 p) (2 ^ i)
  have hmul : 2 ^ i * (zerosBelow m0 p / 2 ^ i) ≤
      zerosBelow m0 (p - zerosBelow m0 p % 2 ^ i) := by omega
  have hdn : zerosBelow m0 p / 2 ^ i ≤
      zerosBelow m0 (p - zerosBelow m0 p % 2 ^ i) / 2 ^ i := by
    rw [Nat.le_div_iff_mul_le hip, Nat.mul_comm]
    exact hmul
  have hup : zerosBelow m0 (p - zerosBelow m0 p % 2 ^ i) / 2 ^ i ≤
      zerosBelow m0 p / 2 ^ i := Nat.div_le_div_right h1
  omega

theorem zbit_move (m0 i p : Nat) :
    (zerosBelow m0 (p - zerosBelow m0 p % 2 ^ i)).testBit i =
      (zerosBelow m0 p).testBit i := by
  rw [Nat.testBit_to_div_mod, Nat.testBit_to_div_mod, zdiv_move]

theorem cpos_succ_true (m0 : Nat) {i p : Nat}
    (hb : (zerosBelow m0 p).testBit i = true) :
    2 ^ i ≤ p - zerosBelow m0 p % 2 ^ i ∧
      p - zerosBelow m0 p % 2 ^ (i + 1) =
        (p - zerosBelow m0 p % 2 ^ i) - 2 ^ i := by
  have hms := mod_two_pow_succ (zerosBelow m0 p) i
  have h1 : zerosBelow m0 p / 2 ^ i % 2 = 1 := by
    rw [Nat.testBit_to_div_mod] at hb
    exact of_decide_eq_true hb
  rw [h1, Nat.mul_one] at hms
  have hle : zerosBelow m0 p % 2 ^ (i + 1) ≤ zerosBelow m0 p := Nat.mod_le _ _
  have hzp : zerosBelow m0 p ≤ p := zerosBelow_le m0 p
  omega

theorem cpos_succ_false (m0 : Nat) {i p : Nat}
    (hb : (zerosBelow m0 p).testBit i = false) :
    p - zerosBelow m0 p % 2 ^ (i + 1) = p - zerosBelow m0 p % 2 ^ i := by
  have hms := mod_two_pow_succ (zerosBelow m0 p) i
  have h1 : zerosBelow m0 p / 2 ^ i % 2 = 0 := by
    rw [Nat.testBit_to_div_mod] at hb
    rcases Nat.mod_two_eq_zero_or_one (zerosBelow m0 p / 2 ^ i) with h | h
    · exact h
    · rw [h] at hb; simp at hb
  rw [h1, Nat.mul_zero] at hms
  omega

/-- Counting lemma for the `mk` markers: if `mk` marks exactly the positions
one above a clear bit of `m0` whose (1-based) zero index is divisible by
`2 ^ i`, then the number of marks strictly below `t + 1` is
`zerosBelow m0 t / 2 ^ i`. -/
theorem marker_count (L i m0 : Nat) {mk : Nat}
    (hchar : ∀ j, mk.testBit j = true ↔
      1 ≤ j ∧ j < 2 ^ L ∧ m0.testBit (j - 1) = false ∧
        2 ^ i ∣ zerosBelow m0 j) :
    ∀ t, t < 2 ^ L → onesBelow mk (t + 1) = zerosBelow m0 t / 2 ^ i := by
  intro t
  induction t with
  | zero =>
    intro _
    have h0 : mk.testBit 0 = false := by
      cases h : mk.testBit 0
      · rfl
      · have := (hchar 0).mp h
        omega
    simp [onesBelow, zerosBelow, h0]
  | succ t ih =>
    intro ht
    have iht := ih (by omega)
    show onesBelow mk (t + 1) + _ = _
    rw [iht]
    have hz : zerosBelow m0 (t + 1) =
        zerosBelow m0 t + (if m0.testBit t then 0 else 1) := rfl
    cases hm : m0.testBit t
    · -- a zero of `m0` at position `t`: possibly a mark at `t + 1`
      have hz1 : zerosBelow m0 (t + 1) = zerosBelow m0 t + 1 := by
        rw [hz, hm]; simp
      rw [hz1, Nat.succ_div]
      by_cases hd : 2 ^ i ∣ zerosBelow m0 t + 1
      · have hbit : mk.testBit (t + 1) = true :=
          (hchar (t + 1)).mpr ⟨by omega, ht, by simpa using hm, by
            rw [hz1]; exact hd⟩
        rw [hbit]
        simp [hd]
      · have hbit : mk.testBit (t + 1) = false := by
          cases h : mk.testBit (t + 1)
          · rfl
          · have h4 := ((hchar (t + 1)).mp h).2.2.2
            rw [hz1] at h4
            exact absurd h4 hd
        rw [hbit]
        simp [hd]
    · -- a set bit of `m0` at `t`: no mark at `t + 1`, zero count unchanged
      have hz1 : zerosBelow m0 (t + 1) = zerosBelow m0 t := by
        rw [hz, hm]; simp
      have hbit : mk.testBit (t + 1) = false := by
        cases h : mk.testBit (t + 1)
        · rfl
        · have h3 := ((hchar (t + 1)).mp h).2.2.1
          simp at h3
          rw [hm] at h3
          exact absurd h3 (by simp)
      rw [hbit, hz1]
      simp

/-- Distinct set bits of `m0` never collide at the same current position:
the current-position map `p ↦ p - zerosBelow m0 p % 2 ^ i` is strictly
monotone on the set bits of `m0`. -/
theorem cpos_strictMono (m0 i : Nat) {p p' : Nat}
    (hp : m0.testBit p = true) (hlt : p < p') :
    p - zerosBelow m0 p % 2 ^ i < p' - zerosBelow m0 p' % 2 ^ i := by
  have h1 : zerosBelow m0 (p + 1) = zerosBelow m0 p := by
    simp [zerosBelow, hp]
  have h2 := zerosBelow_sub_le m0 (show p + 1 ≤ p' by omega)
  rw [h1] at h2
  have hab : zerosBelow m0 p ≤ zerosBelow m0 p' :=
    zerosBelow_mono m0 (by omega)
  have hmod : zerosBelow m0 p' % 2 ^ i ≤
      zerosBelow m0 p % 2 ^ i + (zerosBelow m0 p' - zerosBelow m0 p) := by
    have he : zerosBelow m0 p' =
        zerosBelow m0 p + (zerosBelow m0 p' - zerosBelow m0 p) := by omega
    calc zerosBelow m0 p' % 2 ^ i
        = (zerosBelow m0 p + (zerosBelow m0 p' - zerosBelow m0 p)) % 2 ^ i := by
          rw [← he]
      _ ≤ zerosBelow m0 p % 2 ^ i +
            (zerosBelow m0 p' - zerosBelow m0 p) % 2 ^ i := by
          rw [Nat.add_mod]
          exact Nat.mod_le _ _
      _ ≤ zerosBelow m0 p % 2 ^ i + (zerosBelow m0 p' - zerosBelow m0 p) := by
          have := Nat.mod_le (zerosBelow m0 p' - zerosBelow m0 p) (2 ^ i)
          omega
  have hzp : zerosBelow m0 p ≤ p := zerosBelow_le m0 p
  have hzp' : zerosBelow m0 p' ≤ p' := zerosBelow_le m0 p'
  have hr : zerosBelow m0 p % 2 ^ i ≤ zerosBelow m0 p := Nat.mod_le _ _
  have hr' : zerosBelow m0 p' % 2 ^ i ≤ zerosBelow m0 p' := Nat.mod_le _ _
  omega

/-- Loop invariant of `compress_mask` before outer iteration `i`: each set bit
of the original mask `m0` at position `p` currently sits at position
`p - zerosBelow m0 p % 2 ^ i`, both in `m` and (carrying its `x`-payload) in
`x`; `mk` marks the zeros of `m0` whose 1-based index is divisible by
`2 ^ i`; all three registers fit the mask width. -/
structure CInv (L m0 x0 i : Nat) (s : CompressState) : Prop where
  hm : ∀ j, s.m.testBit j = true ↔
    ∃ p, m0.testBit p = true ∧ p - zerosBelow m0 p % 2 ^ i = j
  hx : ∀ j, s.x.testBit j = true ↔
    ∃ p, m0.testBit p = true ∧ x0.testBit p = true ∧
      p - zerosBelow m0 p % 2 ^ i = j
  hmk : ∀ j, s.mk.testBit j = true ↔
    1 ≤ j ∧ j < 2 ^ L ∧ m0.testBit (j - 1) = false ∧
      2 ^ i ∣ zerosBelow m0 j
  hmB : s.m < 2 ^ 2 ^ L
  hxB : s.x < 2 ^ 2 ^ L
  hmkB : s.mk < 2 ^ 2 ^ L

theorem cinv_init (L m0 x0 : Nat) (hm0 : m0 < 2 ^ 2 ^ L) :
    CInv L m0 x0 0
      { x := x0 &&& m0, m := m0, mk := fmShl L (fmNot L m0) 1 } := by
  refine ⟨?_, ?_, ?_, hm0, lt_of_le_of_lt Nat.and_le_right hm0, fmShl_lt L _ 1⟩
  · intro j
    simp only [pow_zero, Nat.mod_one, Nat.sub_zero]
    constructor
    · intro h
      exact ⟨j, h, rfl⟩
    · rintro ⟨p, hp, rfl⟩
      exact hp
  · intro j
    simp only [pow_zero, Nat.mod_one, Nat.sub_zero, Nat.testBit_and]
    constructor
    · intro h
      rw [Bool.and_eq_true] at h
      exact ⟨j, h.2, h.1, rfl⟩
    · rintro ⟨p, hp, hxp, rfl⟩
      rw [hxp, hp]
      rfl
  · intro j
    rw [fmShl_testBit, fmNot_testBit]
    simp only [pow_zero, Nat.one_dvd, and_true]
    constructor
    · intro h
      have h1 : j < 2 ^ L := by
        by_contra hc
        simp [hc] at h
      have h2 : 1 ≤ j := by
        by_contra hc
        simp [show ¬ j ≥ 1 from hc] at h
      have h3 : j - 1 < 2 ^ L := by omega
      refine ⟨h2, h1, ?_⟩
      simp [h1, h2, h3] at h
      cases hb : m0.testBit (j - 1)
      · rfl
      · rw [hb] at h
        simp at h
    · rintro ⟨h2, h1, hb⟩
      have h3 : j - 1 < 2 ^ L := by omega
      simp [h1, h2, h3, hb]

theorem cinv_step (L m0 x0 : Nat) (hm0B : m0 < 2 ^ 2 ^ L) {i : Nat}
    (hi : i < L) {s : CompressState} (h : CInv L m0 x0 i s) :
    CInv L m0 x0 (i + 1) (compressStep L i s) := by
  obtain ⟨hm, hx, hmk, hmB, hxB, hmkB⟩ := h
  have hL : 1 ≤ L := by omega
  have hpw : ∀ p, m0.testBit p = true → p < 2 ^ L :=
    fun p hp => testBit_lt_width hm0B hp
  have hcw : ∀ p, m0.testBit p = true →
      p - zerosBelow m0 p % 2 ^ i < 2 ^ L :=
    fun p hp => lt_of_le_of_lt (Nat.sub_le _ _) (hpw p hp)
  -- `mp` is positional: its bit `j` is bit `i` of the zero count below `j`
  have hmp : ∀ j, j < 2 ^ L →
      (compressMp L s.mk).testBit j = (zerosBelow m0 j).testBit i := by
    intro j hj
    rw [compressMp_testBit L hL s.mk hj, marker_count L i m0 hmk j hj,
      Nat.testBit_to_div_mod]
  -- characterization of `mv = mp & m`
  have hmvc : ∀ j, (compressMp L s.mk &&& s.m).testBit j = true ↔
      ∃ p, m0.testBit p = true ∧ p - zerosBelow m0 p % 2 ^ i = j ∧
        (zerosBelow m0 p).testBit i = true := by
    intro j
    rw [Nat.testBit_and, Bool.and_eq_true]
    constructor
    · rintro ⟨hmpj, hmj⟩
      obtain ⟨p, hp, hcp⟩ := (hm j).mp hmj
      have hjw : j < 2 ^ L := hcp ▸ hcw p hp
      have hzb : (zerosBelow m0 p).testBit i = true := by
        have hz := zbit_move m0 i p
        rw [hcp] at hz
        rw [← hz, ← hmp j hjw]
        exact hmpj
      exact ⟨p, hp, hcp, hzb⟩
    · rintro ⟨p, hp, hcp, hzb⟩
      have hjw : j < 2 ^ L := hcp ▸ hcw p hp
      constructor
      · rw [hmp j hjw]
        have hz := zbit_move m0 i p
        rw [hcp] at hz
        rw [hz]
        exact hzb
      · exact (hm j).mpr ⟨p, hp, hcp⟩
  -- characterization of `t = x & mv`
  have htc : ∀ j, (s.x &&& (compressMp L s.mk &&& s.m)).testBit j = true ↔
      ∃ p, m0.testBit p = true ∧ x0.testBit p = true ∧
        p - zerosBelow m0 p % 2 ^ i = j ∧
        (zerosBelow m0 p).testBit i = true := by
    intro j
    rw [Nat.testBit_and, Bool.and_eq_true]
    constructor
    · rintro ⟨hxj, hmvj⟩
      obtain ⟨p, hp, hxp, hcp⟩ := (hx j).mp hxj
      obtain ⟨p', hp', hcp', hzb'⟩ := (hmvc j).mp hmvj
      rcases Nat.lt_trichotomy p p' with hlt | heq | hlt
      · exact absurd (hcp.trans hcp'.symm)
          (Nat.ne_of_lt (cpos_strictMono m0 i hp hlt))
      · subst heq
        exact ⟨p, hp, hxp, hcp, hzb'⟩
      · exact absurd (hcp'.trans hcp.symm)
          (Nat.ne_of_lt (cpos_strictMono m0 i hp' hlt))
    · rintro ⟨p, hp, hxp, hcp, hzb⟩
      exact ⟨(hx j).mpr ⟨p, hp, hxp, hcp⟩, (hmvc j).mpr ⟨p, hp, hcp, hzb⟩⟩
  -- the updated `m`
  have hm' : ∀ j,
      ((s.m ^^^ (compressMp L s.mk &&& s.m)) |||
        ((compressMp L s.mk &&& s.m) >>> 2 ^ i)).testBit j = true ↔
      ∃ p, m0.testBit p = true ∧
        p - zerosBelow m0 p % 2 ^ (i + 1) = j := by
    intro j
    rw [Nat.testBit_or, Nat.testBit_xor, Nat.testBit_shiftRight,
      Bool.or_eq_true]
    constructor
    · intro hj
      rcases hj with hxor | hmv2
      · cases hsj : s.m.testBit j with
        | false =>
          rw [hsj, Bool.false_xor] at hxor
          obtain ⟨p, hp, hcp, _⟩ := (hmvc j).mp hxor
          have hmj : s.m.testBit j = true := (hm j).mpr ⟨p, hp, hcp⟩
          rw [hsj] at hmj
          exact Bool.noConfusion hmj
        | true =>
          rw [hsj, Bool.true_xor] at hxor
          have hxorf : (compressMp L s.mk &&& s.m).testBit j = false := by
            cases hvv : (compressMp L s.mk &&& s.m).testBit j with
            | false => rfl
            | true =>
              rw [hvv] at hxor
              simp at hxor
          obtain ⟨p, hp, hcp⟩ := (hm j).mp hsj
          have hbf : (zerosBelow m0 p).testBit i = false := by
            cases hbb : (zerosBelow m0 p).testBit i with
            | false => rfl
            | true =>
              have hmv : (compressMp L s.mk &&& s.m).testBit j = true :=
                (hmvc j).mpr ⟨p, hp, hcp, hbb⟩
              rw [hxorf] at hmv
              exact Bool.noConfusion hmv
          have hcf := cpos_succ_false m0 hbf
          exact ⟨p, hp, by rw [hcf]; exact hcp⟩
      · obtain ⟨p, hp, hcp, hbb⟩ := (hmvc _).mp hmv2
        obtain ⟨hct1, hct2⟩ := cpos_succ_true m0 hbb
        exact ⟨p, hp, by omega⟩
    · rintro ⟨p, hp, hcp1⟩
      cases hbb : (zerosBelow m0 p).testBit i with
      | false =>
        have hcf := cpos_succ_false m0 hbb
        have hcpi : p - zerosBelow m0 p % 2 ^ i = j := by
          rw [← hcf]; exact hcp1
        have hmj : s.m.testBit j = true := (hm j).mpr ⟨p, hp, hcpi⟩
        have hmvf : (compressMp L s.mk &&& s.m).testBit j = false := by
          cases hv : (compressMp L s.mk &&& s.m).testBit j with
          | false => rfl
          | true =>
            obtain ⟨p', hp', hcp', hb'⟩ := (hmvc j).mp hv
            rcases Nat.lt_trichotomy p p' with hlt | heq | hlt
            · exact absurd (hcpi.trans hcp'.symm)
                (Nat.ne_of_lt (cpos_strictMono m0 i hp hlt))
            · subst heq
              rw [hbb] at hb'
              exact Bool.noConfusion hb'
            · exact absurd (hcp'.trans hcpi.symm)
                (Nat.ne_of_lt (cpos_strictMono m0 i hp' hlt))
        left
        rw [hmj, hmvf]
        rfl
      | true =>
        obtain ⟨hct1, hct2⟩ := cpos_succ_true m0 hbb
        right
        exact (hmvc _).mpr ⟨p, hp, by omega, hbb⟩
  -- the updated `x`
  have hx' : ∀ j,
      ((s.x ^^^ (s.x &&& (compressMp L s.mk &&& s.m))) |||
        ((s.x &&& (compressMp L s.mk &&& s.m)) >>> 2 ^ i)).testBit j = true ↔
      ∃ p, m0.testBit p = true ∧ x0.testBit p = true ∧
        p - zerosBelow m0 p % 2 ^ (i + 1) = j := by
    intro j
    rw [Nat.testBit_or, Nat.testBit_xor, Nat.testBit_shiftRight,
      Bool.or_eq_true]
    constructor
    · intro hj
      rcases hj with hxor | ht2
      · cases hsj : s.x.testBit j with
        | false =>
          rw [hsj, Bool.false_xor] at hxor
          obtain ⟨p, hp, hxp, hcp, _⟩ := (htc j).mp hxor
          have hxj : s.x.testBit j = true := (hx j).mpr ⟨p, hp, hxp, hcp⟩
          rw [hsj] at hxj
          exact Bool.noConfusion hxj
        | true =>
          rw [hsj, Bool.true_xor] at hxor
          have hxorf : (s.x &&& (compressMp L s.mk &&& s.m)).testBit j = false := by
            cases hvv : (s.x &&& (compressMp L s.mk &&& s.m)).testBit j with
            | false => rfl
            | true =>
              rw [hvv] at hxor
              simp at hxor
          obtain ⟨p, hp, hxp, hcp⟩ := (hx j).mp hsj
          have hbf : (zerosBelow m0 p).testBit i = false := by
            cases hbb : (zerosBelow m0 p).testBit i with
            | false => rfl
            | true =>
              have ht : (s.x &&& (compressMp L s.mk &&& s.m)).testBit j = true :=
                (htc j).mpr ⟨p, hp, hxp, hcp, hbb⟩
              rw [hxorf] at ht
              exact Bool.noConfusion ht
          have hcf := cpos_succ_false m0 hbf
          exact ⟨p, hp, hxp, by rw [hcf]; exact hcp⟩
      · obtain ⟨p, hp, hxp, hcp, hbb⟩ := (htc _).mp ht2
        obtain ⟨hct1, hct2⟩ := cpos_succ_true m0 hbb
        exact ⟨p, hp, hxp, by omega⟩
    · rintro ⟨p, hp, hxp, hcp1⟩
      cases hbb : (zerosBelow m0 p).testBit i with
      | false =>
        have hcf := cpos_succ_false m0 hbb
        have hcpi : p - zerosBelow m0 p % 2 ^ i = j := by
          rw [← hcf]; exact hcp1
        have hxj : s.x.testBit j = true := (hx j).mpr ⟨p, hp, hxp, hcpi⟩
        have htf : (s.x &&& (compressMp L s.mk &&& s.m)).testBit j = false := by
          cases hv : (s.x &&& (compressMp L s.mk &&& s.m)).testBit j with
          | false => rfl
          | true =>
            obtain ⟨p', hp', _, hcp', hb'⟩ := (htc j).mp hv
            rcases Nat.lt_trichotomy p p' with hlt | heq | hlt
            · exact absurd (hcpi.trans hcp'.symm)
                (Nat.ne_of_lt (cpos_strictMono m0 i hp hlt))
            · subst heq
              rw [hbb] at hb'
              exact Bool.noConfusion hb'
            · exact absurd (hcp'.trans hcpi.symm)
                (Nat.ne_of_lt (cpos_strictMono m0 i hp' hlt))
        left
        rw [hxj, htf]
        rfl
      | true =>
        obtain ⟨hct1, hct2⟩ := cpos_succ_true m0 hbb
        right
        exact (htc _).mpr ⟨p, hp, hxp, by omega, hbb⟩
  -- the updated `mk`
  have hmk' : ∀ j, (s.mk &&& fmNot L (compressMp L s.mk)).testBit j = true ↔
      1 ≤ j ∧ j < 2 ^ L ∧ m0.testBit (j - 1) = false ∧
        2 ^ (i + 1) ∣ zerosBelow m0 j := by
    intro j
    rw [Nat.testBit_and, fmNot_testBit, Bool.and_eq_true]
    constructor
    · rintro ⟨hmkj, hcomp⟩
      obtain ⟨h1, h2, h3, h4⟩ := (hmk j).mp hmkj
      have hmpj : (compressMp L s.mk).testBit j = false := by
        cases hv : (compressMp L s.mk).testBit j with
        | false => rfl
        | true =>
          rw [hv] at hcomp
          simp [h2] at hcomp
      rw [hmp j h2] at hmpj
      exact ⟨h1, h2, h3, (dvd_pow_succ_iff _ _).mpr ⟨h4, hmpj⟩⟩
    · rintro ⟨h1, h2, h3, h4⟩
      rw [dvd_pow_succ_iff] at h4
      refine ⟨(hmk j).mpr ⟨h1, h2, h3, h4.1⟩, ?_⟩
      rw [hmp j h2, h4.2]
      simp [h2]
  have hmvB : compressMp L s.mk &&& s.m < 2 ^ 2 ^ L :=
    lt_of_le_of_lt Nat.and_le_right hmB
  have htB : s.x &&& (compressMp L s.mk &&& s.m) < 2 ^ 2 ^ L :=
    lt_of_le_of_lt Nat.and_le_left hxB
  exact ⟨hm', hx', hmk',
    Nat.or_lt_two_pow (Nat.xor_lt_two_pow hmB hmvB) (shiftRight_lt hmvB _),
    Nat.or_lt_two_pow (Nat.xor_lt_two_pow hxB htB) (shiftRight_lt htB _),
    lt_of_le_of_lt Nat.and_le_left hmkB⟩

theorem cinv_loop (L m0 x0 : Nat) (hm0 : m0 < 2 ^ 2 ^ L) :
    ∀ n, n ≤ L → CInv L m0 x0 n
      ((List.range n).foldl (fun s i => compressStep L i s)
        { x := x0 &&& m0, m := m0, mk := fmShl L (fmNot L m0) 1 }) := by
  intro n
  induction n with
  | zero =>
    intro _
    simpa using cinv_init L m0 x0 hm0
  | succ n ih =>
    intro hn
    rw [List.range_succ, List.foldl_append]
    simp only [List.foldl_cons, List.foldl_nil]
    exact cinv_step L m0 x0 hm0 (by omega) (ih (by omega))

/-- The Hacker's Delight 7-4 loop of `compress_mask` computes exactly the
positional parallel bit-extract `pext`. -/
theorem compress_mask_eq_pext (L x m : Nat) (hm : m < 2 ^ 2 ^ L) :
    compress_mask L x m = pext x m := by
  have hinv := cinv_loop L m x hm L (le_refl L)
  apply Nat.eq_of_testBit_eq
  intro j
  have h1 := hinv.hx j
  have h2 := pext_testBit m x j
  have key : (∃ p, m.testBit p = true ∧ x.testBit p = true ∧
      p - zerosBelow m p % 2 ^ L = j) ↔
      (∃ p, m.testBit p = true ∧ x.testBit p = true ∧ onesBelow m p = j) := by
    constructor
    · rintro ⟨p, hp, hxp, hcp⟩
      refine ⟨p, hp, hxp, ?_⟩
      have hpw : p < 2 ^ L := testBit_lt_width hm hp
      have hz : zerosBelow m p % 2 ^ L = zerosBelow m p :=
        Nat.mod_eq_of_lt (lt_of_le_of_lt (zerosBelow_le m p) hpw)
      have hadd := onesBelow_add_zerosBelow m p
      omega
    · rintro ⟨p, hp, hxp, hones⟩
      refine ⟨p, hp, hxp, ?_⟩
      have hpw : p < 2 ^ L := testBit_lt_width hm hp
      have hz : zerosBelow m p % 2 ^ L = zerosBelow m p :=
        Nat.mod_eq_of_lt (lt_of_le_of_lt (zerosBelow_le m p) hpw)
      have hadd := onesBelow_add_zerosBelow m p
      omega
  have hceq : compress_mask L x m =
      ((List.range L).foldl (fun s i => compressStep L i s)
        { x := x &&& m, m := m, mk := fmShl L (fmNot L m) 1 }).x := rfl
  have hcm : (compress_mask L x m).testBit j = true ↔
      (pext x m).testBit j = true := by
    rw [hceq]
    exact (h1.trans key).trans h2.symm
  cases hL : (compress_mask L x m).testBit j with
  | false =>
    cases hR : (pext x m).testBit j with
    | false => rfl
    | true =>
      have hcontra := hcm.mpr hR
      rw [hL] at hcontra
      exact Bool.noConfusion hcontra
  | true => exact (hcm.mp hL).symm

/-- **C1.** For field masks `x`, `m` of width `MAX_FIELDS = 2 ^ L`, the
mask-compression operation `compress_mask` satisfies
`pop_count (compress_mask x m) = pop_count (x &&& m)`, and for each
`k < pop_count (x &&& m)` the position in `m` indexed by the k-th set bit of
the compressed result (the numbering induced by `m`) is exactly the k-th set
bit of `x &&& m`. -/
theorem compress_mask_spec (L x m : Nat) (_hx : x < 2 ^ 2 ^ L)
    (hm : m < 2 ^ 2 ^ L) :
    pop_count (compress_mask L x m) = pop_count (x &&& m) ∧
    ∀ k, k < pop_count (x &&& m) →
      find_index_set m (find_index_set (compress_mask L x m) k) =
        find_index_set (x &&& m) k := by
  rw [compress_mask_eq_pext L x m hm]
  exact ⟨pop_count_pext m x, fun k hk => find_index_set_pext m x k hk⟩

/-- Witness for C1 at `L = 3` (8-bit masks), `x = 0xB6`, `m = 0x9D`. -/
theorem compress_mask_spec_witness :
    (0xB6 : Nat) < 2 ^ 2 ^ 3 ∧ (0x9D : Nat) < 2 ^ 2 ^ 3 ∧
    (pop_count (compress_mask 3 0xB6 0x9D) = pop_count (0xB6 &&& 0x9D) ∧
    ∀ k, k < pop_count (0xB6 &&& 0x9D) →
      find_index_set 0x9D (find_index_set (compress_mask 3 0xB6 0x9D) k) =
        find_index_set (0xB6 &&& 0x9D) k) :=
  ⟨by decide, by decide, compress_mask_spec 3 0xB6 0x9D (by decide) (by decide)⟩

/-! ## LayoutDescription and copy-offset computation

Embedding of `LayoutDescription::compute_copy_offsets`
(`legion_instances.cc:119-175`, `199-213`, `216-237`). -/

/-- `Domain::CopySrcDstField`: one DMA field descriptor.  The
pre-`NEW_INSTANCE_CREATION` path stores `offset`, `size`, `serdez_id`; the
`NEW_INSTANCE_CREATION` path stores `field_id` (line 64-65); the data model
(spec §3) lists `field_infos` entries as `(field_id, offset, size, serdez)`,
so the embedding keeps the union.  `inst` is the physical-instance handle
filled in by `compute_copy_offsets`. -/
structure CopySrcDstField where
  field_id : Nat
  offset : Nat
  size : Nat
  serdez_id : Nat
  inst : Nat
deriving Repr, DecidableEq

instance : Inhabited CopySrcDstField := ⟨⟨0, 0, 0, 0, 0⟩⟩

/-- The fields of `LayoutDescription` used by copy-offset computation: the
allocated-fields mask, `field_infos` in mask-bit order, the `field_indexes`
map from field id to position, and the compression cache.  The cache's
chaining hash map is collapsed to its association list: a lookup compares the
full mask after hashing buckets, so bucketing cannot change the result. -/
structure LayoutDescription where
  allocated_fields : Nat
  field_infos : List CopySrcDstField
  field_indexes : List (Nat × Nat)
  comp_cache : List (Nat × Nat)
deriving Repr, DecidableEq

/-- The compressed mask `compute_copy_offsets` works with: the memoized value
when the cache holds `copy_mask`, otherwise
`compress_mask<STATIC_LOG2(MAX_FIELDS)>(copy_mask, allocated_fields)`. -/
def compressedOf (L : Nat) (l : LayoutDescription) (copy_mask : Nat) : Nat :=
  match l.comp_cache.find? (fun pr => pr.1 == copy_mask) with
  | some pr => pr.2
  | none => compress_mask L copy_mask l.allocated_fields

/-- `LayoutDescription::compute_copy_offsets(copy_mask, instance, fields)`:
memoized compression (with cache insertion on a miss), then `fields` is grown
by one descriptor per set bit of the compressed mask, in ascending bit order
(`find_index_set(idx)`), each with the instance filled in. -/
def compute_copy_offsets (L : Nat) (l : LayoutDescription) (copy_mask : Nat)
    (inst : Nat) (fields : List CopySrcDstField) :
    LayoutDescription × List CopySrcDstField :=
  let compressed := compressedOf L l copy_mask
  let l' :=
    if (l.comp_cache.find? (fun pr => pr.1 == copy_mask)).isSome then l
    else { l with comp_cache := l.comp_cache ++ [(copy_mask, compressed)] }
  (l', fields ++ (List.range (pop_count compressed)).map (fun idx =>
    { l.field_infos.getD (find_index_set compressed idx) default with
        inst := inst }))

/-- `LayoutDescription::compute_copy_offsets(fid, instance, fields)`
(lines 199-213): look up the mask position of the field id and append its
descriptor.  Release builds index unconditionally (the debug build asserts
the id is present); the embedding reads through a defaulted lookup. -/
def compute_copy_offsets_field (l : LayoutDescription) (fid inst : Nat)
    (fields : List CopySrcDstField) : List CopySrcDstField :=
  fields ++ [{ l.field_infos.getD
      (((l.field_indexes.find? (fun pr => pr.1 == fid)).map Prod.snd).getD 0)
      default with inst := inst }]

/-- `LayoutDescription::compute_copy_offsets(copy_fields, instance, fields)`
(lines 216-237): append one descriptor per requested field id, in request
order. -/
def compute_copy_offsets_fields (l : LayoutDescription)
    (copy_fields : List Nat) (inst : Nat)
    (fields : List CopySrcDstField) : List CopySrcDstField :=
  fields ++ copy_fields.map (fun fid =>
    { l.field_infos.getD
        (((l.field_indexes.find? (fun pr => pr.1 == fid)).map Prod.snd).getD 0)
        default with inst := inst })

theorem compute_copy_offsets_snd (L : Nat) (l : LayoutDescription)
    (copy_mask inst : Nat) (fields : List CopySrcDstField) :
    (compute_copy_offsets L l copy_mask inst fields).2 =
      fields ++ (List.range (pop_count (compressedOf L l copy_mask))).map
        (fun idx =>
          { l.field_infos.getD
              (find_index_set (compressedOf L l copy_mask) idx) default with
              inst := inst }) := rfl

theorem getD_map_range {α : Type} (d : α) (f : Nat → α) {n i : Nat}
    (h : i < n) : ((List.range n).map f).getD i d = f i := by
  rw [List.getD_eq_getD_get?, List.get?_eq_getElem?, List.getElem?_map,
    List.getElem?_range h]
  rfl

/-- **C10.** Every overload of `compute_copy_offsets` only appends to the
caller's vector: the prior entries survive unchanged as a prefix, exactly
`pop_count` of the compressed mask (resp. `1`, resp. `copy_fields.length`)
records are added at the end, and every appended record carries the passed-in
physical instance. -/
theorem compute_copy_offsets_frame (L : Nat) (l : LayoutDescription)
    (copy_mask fid inst : Nat) (copy_fields : List Nat)
    (fields : List CopySrcDstField) :
    ((compute_copy_offsets L l copy_mask inst fields).2.take fields.length =
        fields ∧
      (compute_copy_offsets L l copy_mask inst fields).2.length =
        fields.length + pop_count (compressedOf L l copy_mask) ∧
      ∀ e ∈ (compute_copy_offsets L l copy_mask inst fields).2.drop
          fields.length, e.inst = inst) ∧
    ((compute_copy_offsets_field l fid inst fields).take fields.length =
        fields ∧
      (compute_copy_offsets_field l fid inst fields).length =
        fields.length + 1 ∧
      ∀ e ∈ (compute_copy_offsets_field l fid inst fields).drop
          fields.length, e.inst = inst) ∧
    ((compute_copy_offsets_fields l copy_fields inst fields).take
        fields.length = fields ∧
      (compute_copy_offsets_fields l copy_fields inst fields).length =
        fields.length + copy_fields.length ∧
      ∀ e ∈ (compute_copy_offsets_fields l copy_fields inst fields).drop
          fields.length, e.inst = inst) := by
  refine ⟨⟨?_, ?_, ?_⟩, ⟨?_, ?_, ?_⟩, ⟨?_, ?_, ?_⟩⟩
  · rw [compute_copy_offsets_snd, List.take_left]
  · rw [compute_copy_offsets_snd, List.length_append, List.length_map,
      List.length_range]
  · rw [compute_copy_offsets_snd, List.drop_left]
    intro e he
    obtain ⟨idx, _, hidx⟩ := List.mem_map.mp he
    rw [← hidx]
  · rw [compute_copy_offsets_field, List.take_left]
  · rw [compute_copy_offsets_field, List.length_append]
    rfl
  · rw [compute_copy_offsets_field, List.drop_left]
    intro e he
    rw [List.mem_singleton.mp he]
  · rw [compute_copy_offsets_fields, List.take_left]
  · rw [compute_copy_offsets_fields, List.length_append, List.length_map]
  · rw [compute_copy_offsets_fields, List.drop_left]
    intro e he
    obtain ⟨f, _, hf⟩ := List.mem_map.mp he
    rw [← hf]

/-- Well-formedness of the compression cache: every memoized pair stores the
actual compression of its mask against the layout's allocated fields — the
only way `compute_copy_offsets` ever inserts entries. -/
def cacheWF (L : Nat) (l : LayoutDescription) : Prop :=
  ∀ pr ∈ l.comp_cache, pr.2 = compress_mask L pr.1 l.allocated_fields

theorem compressedOf_eq (L : Nat) (l : LayoutDescription) (copy_mask : Nat)
    (h : cacheWF L l) :
    compressedOf L l copy_mask =
      compress_mask L copy_mask l.allocated_fields := by
  unfold compressedOf
  cases hfind : l.comp_cache.find? (fun pr => pr.1 == copy_mask) with
  | none => rfl
  | some pr =>
    have hpred := List.find?_some hfind
    have hmem := List.mem_of_find?_eq_some hfind
    have heq : pr.1 = copy_mask := by simpa using hpred
    show pr.2 = compress_mask L copy_mask l.allocated_fields
    rw [h pr hmem, heq]

/-- **C2.** Copy-offset ordering: two layouts with equal allocated-fields
masks whose `field_infos` are laid out in mask-bit order over the shared
field-space numbering `fs` append, for the same copy mask, sequences of
equal length whose i-th entries refer to the same field id. -/
theorem compute_copy_offsets_ordering (L : Nat)
    (src dst : LayoutDescription) (fs : Nat → Nat) (copy_mask : Nat)
    (instS instD : Nat) (fS fD : List CopySrcDstField)
    (hmask : src.allocated_fields = dst.allocated_fields)
    (hB : src.allocated_fields < 2 ^ 2 ^ L)
    (_hcopyB : copy_mask < 2 ^ 2 ^ L)
    (hlenS : src.field_infos.length = pop_count src.allocated_fields)
    (hlenD : dst.field_infos.length = pop_count dst.allocated_fields)
    (hordS : ∀ k, k < src.field_infos.length →
      (src.field_infos.getD k default).field_id =
        fs (find_index_set src.allocated_fields k))
    (hordD : ∀ k, k < dst.field_infos.length →
      (dst.field_infos.getD k default).field_id =
        fs (find_index_set dst.allocated_fields k))
    (hcS : cacheWF L src) (hcD : cacheWF L dst) :
    ((compute_copy_offsets L src copy_mask instS fS).2.drop fS.length).length
      = ((compute_copy_offsets L dst copy_mask instD fD).2.drop
          fD.length).length ∧
    ∀ i, i < ((compute_copy_offsets L src copy_mask instS fS).2.drop
        fS.length).length →
      (((compute_copy_offsets L src copy_mask instS fS).2.drop
          fS.length).getD i default).field_id =
      (((compute_copy_offsets L dst copy_mask instD fD).2.drop
          fD.length).getD i default).field_id := by
  have hcomS : compressedOf L src copy_mask =
      pext copy_mask src.allocated_fields := by
    rw [compressedOf_eq L src copy_mask hcS,
      compress_mask_eq_pext L copy_mask src.allocated_fields hB]
  have hcomD : compressedOf L dst copy_mask =
      pext copy_mask dst.allocated_fields := by
    rw [compressedOf_eq L dst copy_mask hcD,
      compress_mask_eq_pext L copy_mask dst.allocated_fields (hmask ▸ hB)]
  have hsame : compressedOf L src copy_mask = compressedOf L dst copy_mask := by
    rw [hcomS, hcomD, hmask]
  have hdropS := compute_copy_offsets_snd L src copy_mask instS fS
  have hdropD := compute_copy_offsets_snd L dst copy_mask instD fD
  rw [hdropS, hdropD, List.drop_left, List.drop_left]
  constructor
  · rw [List.length_map, List.length_map, List.length_range,
      List.length_range, hsame]
  · intro i hi
    rw [List.length_map, List.length_range] at hi
    rw [getD_map_range _ _ hi, getD_map_range _ _ (by rw [← hsame]; exact hi)]
    show (src.field_infos.getD
        (find_index_set (compressedOf L src copy_mask) i) default).field_id =
      (dst.field_infos.getD
        (find_index_set (compressedOf L dst copy_mask) i) default).field_id
    have hposS : find_index_set (compressedOf L src copy_mask) i <
        pop_count src.allocated_fields := by
      rw [hcomS]
      apply find_index_set_lt (pext_lt_two_pow src.allocated_fields copy_mask)
      rw [← hcomS]
      exact hi
    rw [← hsame]
    have hposLenS : find_index_set (compressedOf L src copy_mask) i <
        src.field_infos.length := by omega
    have hposLenD : find_index_set (compressedOf L src copy_mask) i <
        dst.field_infos.length := by
      rw [hlenD, ← hmask]
      exact hposS
    rw [hordS _ hposLenS, hordD _ hposLenD, hmask]

/-- A concrete source layout: allocated fields `{0, 1, 3}` (mask `0b1011`),
field ids `10, 11, 13` in mask-bit order, empty compression cache. -/
def srcLayoutEx : LayoutDescription :=
  { allocated_fields := 11
    field_infos := [⟨10, 0, 8, 0, 0⟩, ⟨11, 8, 4, 0, 0⟩, ⟨13, 12, 2, 0, 0⟩]
    field_indexes := [(10, 0), (11, 1), (13, 2)]
    comp_cache := [] }

/-- A concrete destination layout over the same allocated fields with
different offsets. -/
def dstLayoutEx : LayoutDescription :=
  { allocated_fields := 11
    field_infos := [⟨10, 0, 2, 0, 0⟩, ⟨11, 2, 2, 0, 0⟩, ⟨13, 4, 4, 0, 0⟩]
    field_indexes := [(10, 0), (11, 1), (13, 2)]
    comp_cache := [] }

/-- Witness for C2 at `L = 2`, copy mask `0b1010`, with `srcLayoutEx` and
`dstLayoutEx`. -/
theorem compute_copy_offsets_ordering_witness :
    srcLayoutEx.allocated_fields = dstLayoutEx.allocated_fields ∧
    srcLayoutEx.allocated_fields < 2 ^ 2 ^ 2 ∧
    (10 : Nat) < 2 ^ 2 ^ 2 ∧
    srcLayoutEx.field_infos.length = pop_count srcLayoutEx.allocated_fields ∧
    dstLayoutEx.field_infos.length = pop_count dstLayoutEx.allocated_fields ∧
    (∀ k, k < srcLayoutEx.field_infos.length →
      (srcLayoutEx.field_infos.getD k default).field_id =
        (fun p => 10 + p) (find_index_set srcLayoutEx.allocated_fields k)) ∧
    (∀ k, k < dstLayoutEx.field_infos.length →
      (dstLayoutEx.field_infos.getD k default).field_id =
        (fun p => 10 + p) (find_index_set dstLayoutEx.allocated_fields k)) ∧
    cacheWF 2 srcLayoutEx ∧ cacheWF 2 dstLayoutEx ∧
    (((compute_copy_offsets 2 srcLayoutEx 10 5 []).2.drop
        (List.length ([] : List CopySrcDstField))).length =
      ((compute_copy_offsets 2 dstLayoutEx 10 7 []).2.drop
        (List.length ([] : List CopySrcDstField))).length ∧
    ∀ i, i < ((compute_copy_offsets 2 srcLayoutEx 10 5 []).2.drop
        (List.length ([] : List CopySrcDstField))).length →
      (((compute_copy_offsets 2 srcLayoutEx 10 5 []).2.drop
          (List.length ([] : List CopySrcDstField))).getD i default).field_id =
      (((compute_copy_offsets 2 dstLayoutEx 10 7 []).2.drop
          (List.length ([] : List CopySrcDstField))).getD i default).field_id) := by
  have hmask : srcLayoutEx.allocated_fields = dstLayoutEx.allocated_fields :=
    rfl
  have hB : srcLayoutEx.allocated_fields < 2 ^ 2 ^ 2 := by decide
  have hcopy : (10 : Nat) < 2 ^ 2 ^ 2 := by decide
  have hlenS : srcLayoutEx.field_infos.length =
      pop_count srcLayoutEx.allocated_fields := by
    simp [srcLayoutEx, pop_count]
  have hlenD : dstLayoutEx.field_infos.length =
      pop_count dstLayoutEx.allocated_fields := by
    simp [dstLayoutEx, pop_count]
  have hordS : ∀ k, k < srcLayoutEx.field_infos.length →
      (srcLayoutEx.field_infos.getD k default).field_id =
        (fun p => 10 + p) (find_index_set srcLayoutEx.allocated_fields k) := by
    intro k hk
    simp [srcLayoutEx] at hk
    interval_cases k <;> simp [srcLayoutEx, find_index_set]
  have hordD : ∀ k, k < dstLayoutEx.field_infos.length →
      (dstLayoutEx.field_infos.getD k default).field_id =
        (fun p => 10 + p) (find_index_set dstLayoutEx.allocated_fields k) := by
    intro k hk
    simp [dstLayoutEx] at hk
    interval_cases k <;> simp [dstLayoutEx, find_index_set]
  have hcS : cacheWF 2 srcLayoutEx := by
    intro pr hpr
    simp [srcLayoutEx] at hpr
  have hcD : cacheWF 2 dstLayoutEx := by
    intro pr hpr
    simp [dstLayoutEx] at hpr
  exact ⟨hmask, hB, hcopy, hlenS, hlenD, hordS, hordD, hcS, hcD,
    compute_copy_offsets_ordering 2 srcLayoutEx dstLayoutEx (fun p => 10 + p)
      10 5 7 [] [] hmask hB hcopy hlenS hlenD hordS hordD hcS hcD⟩

/-! ## Domains, rectangles, and `PhysicalManager::meets_regions`

Embedding of `meets_regions` (`legion_instances.cc:636-712`), switch
fall-throughs included: case 2 has no `break` and falls into case 3, which
falls into `default: assert(false)`. -/

/-- `Arrays::Rect<1>`. -/
structure Rect1 where
  lo : Int
  hi : Int
deriving Repr, DecidableEq

/-- `Arrays::Rect<2>`. -/
structure Rect2 where
  lo0 : Int
  lo1 : Int
  hi0 : Int
  hi1 : Int
deriving Repr, DecidableEq

/-- `Arrays::Rect<3>`. -/
structure Rect3 where
  lo0 : Int
  lo1 : Int
  lo2 : Int
  hi0 : Int
  hi1 : Int
  hi2 : Int
deriving Repr, DecidableEq

/-- Modelled from the spec: `Rect::dominates` (arrays.h is not in src; §6
says "rectangle `dominates` for structured") — per-coordinate containment of
`other` in `ours`. -/
def Rect1.dominates (ours other : Rect1) : Bool :=
  decide (ours.lo ≤ other.lo) && decide (other.hi ≤ ours.hi)

/-- Modelled from the spec: `Rect<2>::dominates`, per-coordinate
containment. -/
def Rect2.dominates (ours other : Rect2) : Bool :=
  decide (ours.lo0 ≤ other.lo0) && decide (other.hi0 ≤ ours.hi0) &&
  decide (ours.lo1 ≤ other.lo1) && decide (other.hi1 ≤ ours.hi1)

/-- Modelled from the spec: `Rect<3>::dominates`, per-coordinate
containment. -/
def Rect3.dominates (ours other : Rect3) : Bool :=
  decide (ours.lo0 ≤ other.lo0) && decide (other.hi0 ≤ ours.hi0) &&
  decide (ours.lo1 ≤ other.lo1) && decide (other.hi1 ≤ ours.hi1) &&
  decide (ours.lo2 ≤ other.lo2) && decide (other.hi2 ≤ ours.hi2)

/-- A Realm `Domain`: unstructured (`dim = 0`, an index space with a valid
element mask of `num_elmts` slots) or structured.  `rect_data` is a fixed
buffer (`d0 … d5`): `from_rect<N>` writes the `2 N` slots `lo` first then
`hi`, and `get_rect<N>` reads `2 N` slots regardless of the stored
dimension, so slots beyond `2 * dim` stand for the uninitialized memory an
out-of-dimension read would see. -/
inductive DomainM where
  | unstructured (validMask : Nat) (numElmts : Nat)
  | structured (dim : Nat) (d0 d1 d2 d3 d4 d5 : Int)
deriving Repr, DecidableEq

/-- `Domain::get_dim`. -/
def DomainM.get_dim : DomainM → Nat
  | .unstructured _ _ => 0
  | .structured dim _ _ _ _ _ _ => dim

/-- `Domain::get_rect<1>`: reads slots `0` (lo) and `1` (hi). -/
def DomainM.getRect1 : DomainM → Rect1
  | .unstructured _ _ => ⟨0, 0⟩
  | .structured _ d0 d1 _ _ _ _ => ⟨d0, d1⟩

/-- `Domain::get_rect<2>`: reads slots `0, 1` (lo) and `2, 3` (hi). -/
def DomainM.getRect2 : DomainM → Rect2
  | .unstructured _ _ => ⟨0, 0, 0, 0⟩
  | .structured _ d0 d1 d2 d3 _ _ => ⟨d0, d1, d2, d3⟩

/-- `Domain::get_rect<3>`: reads slots `0, 1, 2` (lo) and `3, 4, 5` (hi) —
on a 2-dimensional domain this mis-extracts: the stored `hi0` is read as
`lo2` and the junk slots as `hi1`, `hi2`. -/
def DomainM.getRect3 : DomainM → Rect3
  | .unstructured _ _ => ⟨0, 0, 0, 0, 0, 0⟩
  | .structured _ d0 d1 d2 d3 d4 d5 => ⟨d0, d1, d2, d3, d4, d5⟩

/-- `Domain::from_rect<1>` leaves slots `2 … 5` uninitialized (junk
parameters). -/
def DomainM.from_rect1 (r : Rect1) (j2 j3 j4 j5 : Int) : DomainM :=
  .structured 1 r.lo r.hi j2 j3 j4 j5

/-- `Domain::from_rect<2>` leaves slots `4, 5` uninitialized (junk
parameters). -/
def DomainM.from_rect2 (r : Rect2) (j4 j5 : Int) : DomainM :=
  .structured 2 r.lo0 r.lo1 r.hi0 r.hi1 j4 j5

/-- `Domain::from_rect<3>`. -/
def DomainM.from_rect3 (r : Rect3) : DomainM :=
  .structured 3 r.lo0 r.lo1 r.lo2 r.hi0 r.hi1 r.hi2

/-- The valid element mask of the underlying index space (meaningful for
unstructured domains only). -/
def DomainM.validMask : DomainM → Nat
  | .unstructured m _ => m
  | .structured _ _ _ _ _ _ _ => 0

/-- `ElementMask::get_num_elmts` of the underlying index space. -/
def DomainM.numElmts : DomainM → Nat
  | .unstructured _ n => n
  | .structured _ _ _ _ _ _ _ => 0

/-- `!!(other_mask - our_mask)`: the element-mask set difference is
nonempty.  On natural-number masks, `other - (other &&& ours)` is exactly
the set difference since `other &&& ours` is a sub-mask of `other`. -/
def maskDiffNonzero (other ours : Nat) : Bool :=
  decide (other - (other &&& ours) ≠ 0)

/-- What the forest resolves a `LogicalRegion` to, as consumed by
`meets_regions`: its tree id, the identity of its region node, and
`row_source->get_domains_blocking()`. -/
structure RegionEntry where
  tree_id : Nat
  node_id : Nat
  domains : List DomainM
deriving Repr, DecidableEq

/-- The geometry of a `PhysicalManager` consumed by `meets_regions`. -/
structure ManagerGeom where
  tree_id : Nat
  node_id : Nat
  instance_domain : DomainM
deriving Repr, DecidableEq

/-- One iteration of the `meets_regions` loop.  `ok true` means "keep
going"; `ok false` is the early `return false`; `error` is the
`assert(false)` a dim-2/3 domain reaches by falling through to `default`
after all its (mis-extracted) rectangle checks pass. -/
def meetsOneRegion (mgr : ManagerGeom) (r : RegionEntry) : Except Unit Bool :=
  if r.tree_id ≠ mgr.tree_id then .ok false
  else if r.node_id = mgr.node_id then .ok true
  else
    match mgr.instance_domain.get_dim with
    | 0 => .ok (r.domains.all (fun d =>
        !maskDiffNonzero d.validMask mgr.instance_domain.validMask))
    | 1 => .ok (r.domains.all (fun d =>
        mgr.instance_domain.getRect1.dominates d.getRect1))
    | 2 =>
      if r.domains.all (fun d =>
          mgr.instance_domain.getRect2.dominates d.getRect2) then
        -- no `break`: falls through into the 3-dimensional case
        if r.domains.all (fun d =>
            mgr.instance_domain.getRect3.dominates d.getRect3) then
          .error ()  -- and further into `default: assert(false)`
        else .ok false
      else .ok false
    | 3 =>
      if r.domains.all (fun d =>
          mgr.instance_domain.getRect3.dominates d.getRect3) then
        .error ()  -- no `break`: `default: assert(false)`
      else .ok false
    | _ => .error ()

/-- `PhysicalManager::meets_regions(regions)`. -/
def meets_regions (mgr : ManagerGeom) : List RegionEntry → Except Unit Bool
  | [] => .ok true
  | r :: rest =>
    match meetsOneRegion mgr r with
    | .error e => .error e
    | .ok true => meets_regions mgr rest
    | .ok false => .ok false

/-- **C3** (code bug, flagged by spec §9.2).  For the claim's own scenario —
a structured 2-dimensional manager with domain `[0..10] × [0..10]` and one
region of the same tree (different node) with domain `[2..5] × [3..7]` —
`meets_regions` returns `false` for every content of the uninitialized
rect-data slots: the missing `break` makes case 2 fall into the
3-dimensional comparison, which mis-extracts the stored `hi0` coordinates as
z-lows (`10 ≰ 5`) and fails.  The claim says it returns `true`.  The
different-tree half of the claim does hold (second conjunct). -/
theorem meets_regions_2d_fall_through (j1 j2 j3 j4 : Int) :
    meets_regions
      { tree_id := 1, node_id := 100,
        instance_domain := DomainM.from_rect2 ⟨0, 0, 10, 10⟩ j1 j2 }
      [{ tree_id := 1, node_id := 200,
         domains := [DomainM.from_rect2 ⟨2, 3, 5, 7⟩ j3 j4] }] =
      Except.ok false ∧
    meets_regions
      { tree_id := 1, node_id := 100,
        instance_domain := DomainM.from_rect2 ⟨0, 0, 10, 10⟩ j1 j2 }
      [{ tree_id := 2, node_id := 200,
         domains := [DomainM.from_rect2 ⟨2, 3, 5, 7⟩ j3 j4] }] =
      Except.ok false := by
  constructor
  · simp [meets_regions, meetsOneRegion, DomainM.from_rect2, DomainM.get_dim,
      DomainM.getRect2, DomainM.getRect3, Rect2.dominates, Rect3.dominates]
  · simp [meets_regions, meetsOneRegion]

/-! ## `InstanceBuilder::compute_ancestor_and_domain`
(`legion_instances.cc:1669-1752`) -/

/-- Modelled from the spec: `Rect<1>::convex_hull` (arrays.h not in src;
§4.3: "the convex hull of the bounding rectangles") — per-coordinate min of
lows, max of highs. -/
def Rect1.convex_hull (a b : Rect1) : Rect1 :=
  ⟨min a.lo b.lo, max a.hi b.hi⟩

/-- Modelled from the spec: `Rect<2>::convex_hull`. -/
def Rect2.convex_hull (a b : Rect2) : Rect2 :=
  ⟨min a.lo0 b.lo0, min a.lo1 b.lo1, max a.hi0 b.hi0, max a.hi1 b.hi1⟩

/-- Modelled from the spec: `Rect<3>::convex_hull`. -/
def Rect3.convex_hull (a b : Rect3) : Rect3 :=
  ⟨min a.lo0 b.lo0, min a.lo1 b.lo1, min a.lo2 b.lo2,
    max a.hi0 b.hi0, max a.hi1 b.hi1, max a.hi2 b.hi2⟩

/-- `InstanceBuilder::compute_ancestor_and_domain`, projected to the
`(instance_domain, own_domain)` pair it computes — the interleaved
`find_common_ancestor` climb touches only the region tree and neither reads
nor writes the domain state.  Inputs are the blocking domains of
`regions[0]` and of the remaining regions.  `own_domain` enters as `false`:
the builder constructor lives in `legion_instances.h`, which is not in src;
modelled from the spec §3, whose `owns_domain` is "true when the domain is a
union synthesized by the builder".  Only the unstructured arm sets
`own_domain = true` (it creates a fresh index space for the mask union);
the structured arms build a by-value `from_rect` domain and leave it.  The
`default: assert(false)` arm for unsupported dimensions is the `error`
case; `from_rect` junk slots are passed as zero here, unread by every
consumer of a well-dimensioned domain. -/
def compute_ancestor_and_domain (first : DomainM) (rest : List DomainM) :
    Except Unit (DomainM × Bool) :=
  match rest with
  | [] => .ok (first, false)
  | _ :: _ =>
    match first.get_dim with
    | 0 =>
      .ok (DomainM.unstructured
        (rest.foldl (fun acc d => acc ||| d.validMask) first.validMask)
        first.numElmts, true)
    | 1 =>
      .ok (DomainM.from_rect1
        (rest.foldl (fun acc d => acc.convex_hull d.getRect1) first.getRect1)
        0 0 0 0, false)
    | 2 =>
      .ok (DomainM.from_rect2
        (rest.foldl (fun acc d => acc.convex_hull d.getRect2) first.getRect2)
        0 0, false)
    | 3 =>
      .ok (DomainM.from_rect3
        (rest.foldl (fun acc d => acc.convex_hull d.getRect3) first.getRect3),
        false)
    | _ => .error ()

/-- **C4** counterexample: building for two 2-dimensional regions with
bounding rects `[0..3] × [0..3]` and `[2..5] × [2..5]` synthesizes the
convex hull `[0..5] × [0..5]` but leaves `own_domain = false` — the claim
expects `owns_domain = true`.  Only the dim-0 arm of the source sets
`own_domain`. -/
theorem compute_ancestor_and_domain_2d_not_owned :
    compute_ancestor_and_domain (DomainM.from_rect2 ⟨0, 0, 3, 3⟩ 0 0)
      [DomainM.from_rect2 ⟨2, 2, 5, 5⟩ 0 0] =
      Except.ok (DomainM.from_rect2 ⟨0, 0, 5, 5⟩ 0 0, false) := rfl

/-- **C4** (amended).  With more than one region the builder marks the
synthesized covering domain as owned only in the unstructured (dim-0)
union case; for structured first domains (dims 1-3) the convex-hull domain
is synthesized by value and `own_domain` stays `false`; in particular the
two-rect 2-dimensional scenario yields the hull `[0..5] × [0..5]` with
`own_domain = false`. -/
theorem compute_ancestor_and_domain_owned (first : DomainM)
    (rest : List DomainM) (hne : rest ≠ []) :
    (first.get_dim = 0 →
      (compute_ancestor_and_domain first rest).map Prod.snd =
        Except.ok true) ∧
    (1 ≤ first.get_dim → first.get_dim ≤ 3 →
      (compute_ancestor_and_domain first rest).map Prod.snd =
        Except.ok false) ∧
    compute_ancestor_and_domain (DomainM.from_rect2 ⟨0, 0, 3, 3⟩ 0 0)
      [DomainM.from_rect2 ⟨2, 2, 5, 5⟩ 0 0] =
      Except.ok (DomainM.from_rect2 ⟨0, 0, 5, 5⟩ 0 0, false) := by
  obtain ⟨d, rest', rfl⟩ : ∃ d rest', rest = d :: rest' := by
    cases rest with
    | nil => exact absurd rfl hne
    | cons d rest' => exact ⟨d, rest', rfl⟩
  refine ⟨?_, ?_, rfl⟩
  · intro h0
    simp [compute_ancestor_and_domain, h0, Except.map]
  · intro h1 h3
    have : first.get_dim = 1 ∨ first.get_dim = 2 ∨ first.get_dim = 3 := by
      omega
    rcases this with h | h | h <;>
      simp [compute_ancestor_and_domain, h, Except.map]

/-- Witness for the amended C4 at a concrete unstructured pair of domains. -/
theorem compute_ancestor_and_domain_owned_witness :
    ([DomainM.unstructured 3 8] : List DomainM) ≠ [] ∧
    (((DomainM.unstructured 5 8).get_dim = 0 →
      (compute_ancestor_and_domain (DomainM.unstructured 5 8)
        [DomainM.unstructured 3 8]).map Prod.snd = Except.ok true) ∧
    (1 ≤ (DomainM.unstructured 5 8).get_dim →
      (DomainM.unstructured 5 8).get_dim ≤ 3 →
      (compute_ancestor_and_domain (DomainM.unstructured 5 8)
        [DomainM.unstructured 3 8]).map Prod.snd = Except.ok false) ∧
    compute_ancestor_and_domain (DomainM.from_rect2 ⟨0, 0, 3, 3⟩ 0 0)
      [DomainM.from_rect2 ⟨2, 2, 5, 5⟩ 0 0] =
      Except.ok (DomainM.from_rect2 ⟨0, 0, 5, 5⟩ 0 0, false)) :=
  ⟨by simp,
    compute_ancestor_and_domain_owned (DomainM.unstructured 5 8)
      [DomainM.unstructured 3 8] (by simp)⟩

/-! ## `PhysicalManager` destruction and deletion
(`legion_instances.cc:490-516` and `714-726`) -/

/-- The state of a `PhysicalManager` observed by its destructor and by
`perform_deletion`. -/
structure PhysMgrState where
  is_owner : Bool
  registered_with_runtime : Bool
  instance_exists : Bool
  instance_id : Nat
  own_domain : Bool
deriving Repr, DecidableEq

/-- Externally visible effects of destruction and deletion. -/
inductive MgrEffect where
  | unregisterManager
  | removeRemoteResourceRefs
  | unregisterRemoteInstance
  | leakWarning (inst : Nat)
  | destroyIndexSpace
  | logDeletion (inst : Nat)
  | destroyInstance (inst deferred : Nat)
deriving Repr, DecidableEq

/-- `PhysicalManager::~PhysicalManager` (lines 490-516) as its ordered
effect list: unregister from the region tree if registered; on the owner,
drop the remote resource references, otherwise unregister from the memory
manager; if the owner still holds a live allocation, log a *leak warning* —
the destructor issues no deletion; finally destroy the index space iff the
manager owns its domain. -/
def physicalManagerDestruct (s : PhysMgrState) : List MgrEffect :=
  (if s.registered_with_runtime then [.unregisterManager] else []) ++
  (if s.is_owner then [.removeRemoteResourceRefs]
    else [.unregisterRemoteInstance]) ++
  (if s.is_owner && s.instance_exists then [.leakWarning s.instance_id]
    else []) ++
  (if s.own_domain then [.destroyIndexSpace] else [])

/-- `PhysicalManager::perform_deletion(deferred_event)` (lines 714-726): a
`const` method — it logs and issues `instance.destroy(deferred_event)`,
leaving the manager state (the instance handle included) unchanged; there
is no guard against the instance having been destroyed already. -/
def perform_deletion (s : PhysMgrState) (deferred : Nat) :
    PhysMgrState × List MgrEffect :=
  (s, [.logDeletion s.instance_id, .destroyInstance s.instance_id deferred])

/-- A sequence of `perform_deletion` calls, threading the state and
accumulating the effects. -/
def perform_deletion_seq (s : PhysMgrState) :
    List Nat → PhysMgrState × List MgrEffect
  | [] => (s, [])
  | e :: es =>
    let call := perform_deletion s e
    let restCalls := perform_deletion_seq call.1 es
    (restCalls.1, call.2 ++ restCalls.2)

def MgrEffect.isDestroyInstance : MgrEffect → Bool
  | .destroyInstance _ _ => true
  | _ => false

/-- **C5** counterexample: destroying an owner manager whose allocation
still exists performs no `instance.destroy` at all — it only logs a leak
warning.  The claim says the owner "issues a deletion event to the
allocator" on destruction. -/
theorem destructor_deletes_nothing :
    (physicalManagerDestruct
      { is_owner := true, registered_with_runtime := true,
        instance_exists := true, instance_id := 42,
        own_domain := true }).countP MgrEffect.isDestroyInstance = 0 ∧
    MgrEffect.leakWarning 42 ∈ physicalManagerDestruct
      { is_owner := true, registered_with_runtime := true,
        instance_exists := true, instance_id := 42, own_domain := true } := by
  constructor
  · rfl
  · simp [physicalManagerDestruct]

/-- **C5** (amended).  When the destructor runs on the owner while the
allocation still exists, it emits a leak warning and performs no instance
deletion (deletion happens only through an explicit `perform_deletion`
call); and if the manager synthesized its own domain, the index space is
destroyed as part of destruction. -/
theorem destructor_spec (s : PhysMgrState) (how : s.is_owner = true)
    (hex : s.instance_exists = true) :
    MgrEffect.leakWarning s.instance_id ∈ physicalManagerDestruct s ∧
    (physicalManagerDestruct s).countP MgrEffect.isDestroyInstance = 0 ∧
    (s.own_domain = true →
      MgrEffect.destroyIndexSpace ∈ physicalManagerDestruct s) := by
  unfold physicalManagerDestruct
  rw [how, hex]
  cases hreg : s.registered_with_runtime <;> cases hdom : s.own_domain <;>
    simp [MgrEffect.isDestroyInstance, List.countP_append, List.countP_cons]

/-- Witness for the amended C5. -/
theorem destructor_spec_witness :
    ({ is_owner := true, registered_with_runtime := false,
        instance_exists := true, instance_id := 9,
        own_domain := true } : PhysMgrState).is_owner = true ∧
    ({ is_owner := true, registered_with_runtime := false,
        instance_exists := true, instance_id := 9,
        own_domain := true } : PhysMgrState).instance_exists = true ∧
    (MgrEffect.leakWarning 9 ∈ physicalManagerDestruct
      { is_owner := true, registered_with_runtime := false,
        instance_exists := true, instance_id := 9, own_domain := true } ∧
    (physicalManagerDestruct
      { is_owner := true, registered_with_runtime := false,
        instance_exists := true, instance_id := 9,
        own_domain := true }).countP MgrEffect.isDestroyInstance = 0 ∧
    (({ is_owner := true, registered_with_runtime := false,
        instance_exists := true, instance_id := 9,
        own_domain := true } : PhysMgrState).own_domain = true →
      MgrEffect.destroyIndexSpace ∈ physicalManagerDestruct
        { is_owner := true, registered_with_runtime := false,
          instance_exists := true, instance_id := 9, own_domain := true })) :=
  ⟨rfl, rfl, destructor_spec _ rfl rfl⟩

/-- **C6** counterexample: two `perform_deletion` calls on the same owner
manager issue `instance.destroy` twice — there is no idempotence guard. -/
theorem perform_deletion_twice :
    ((perform_deletion_seq
      { is_owner := true, registered_with_runtime := true,
        instance_exists := true, instance_id := 42, own_domain := false }
      [7, 7]).2.countP MgrEffect.isDestroyInstance) = 2 := rfl

/-- **C6** (amended).  `perform_deletion` is `const` and unguarded: every
call issues exactly one `instance.destroy` (conditioned on its deferred
event), so `n` calls issue `n` destroys and leave the manager state
unchanged; destroying at most once is the caller's responsibility. -/
theorem perform_deletion_count (s : PhysMgrState) (events : List Nat) :
    (perform_deletion_seq s events).1 = s ∧
    ((perform_deletion_seq s events).2.countP MgrEffect.isDestroyInstance) =
      events.length := by
  induction events with
  | nil => exact ⟨rfl, rfl⟩
  | cons e es ih =>
    simp only [perform_deletion_seq, perform_deletion, List.countP_append,
      List.countP_cons]
    refine ⟨ih.1, ?_⟩
    rw [ih.2]
    simp [MgrEffect.isDestroyInstance, List.countP_nil]
    omega

/-! ## Reduction managers
(`legion_instances.cc:1297-1311`, `1334-1358`) and the builder dispatch
(`1577-1654`, `1802-1872`). -/

/-- The slice of the `ReductionOp` vtable the managers consume. -/
structure ReductionOpM where
  sizeof_rhs : Nat
deriving Repr, DecidableEq

/-- `sizeof(ptr_t)`: `ptr_t` wraps a 64-bit value, so 8 bytes. -/
def ptrSize : Nat := 8

/-- `Domain::get_volume` for structured domains: the product of the extents
(`hi - lo + 1` per dimension, clamped at zero for inverted rects); for an
unstructured domain the number of elements of the valid mask. -/
def DomainM.get_volume : DomainM → Nat
  | .unstructured _ n => n
  | .structured 1 d0 d1 _ _ _ _ => (d1 - d0 + 1).toNat
  | .structured 2 d0 d1 d2 d3 _ _ => (d2 - d0 + 1).toNat * (d3 - d1 + 1).toNat
  | .structured 3 d0 d1 d2 d3 d4 d5 =>
      (d3 - d0 + 1).toNat * (d4 - d1 + 1).toNat * (d5 - d2 + 1).toNat
  | .structured _ _ _ _ _ _ _ => 0

/-- `ListReductionManager::get_instance_size` (lines 1297-1311):
`op->sizeof_rhs` multiplied by the element count of `ptr_space`
(`get_num_elmts` of the valid mask for unstructured, `get_volume` for
structured).  Note: no `sizeof(ptr_t)` term, although the same class's
`find_field_offsets` places the reduction value at offset `sizeof(ptr_t)`
of each record and `issue_reduction` reads a pointer at offset 0. -/
def list_get_instance_size (op : ReductionOpM) (ptr_space : DomainM) : Nat :=
  if ptr_space.get_dim = 0 then op.sizeof_rhs * ptr_space.numElmts
  else op.sizeof_rhs * ptr_space.get_volume

/-- **C7** (code bug).  For a list-reduction manager with
`sizeof_rhs = 8` over the four-slot pointer space `[0..3]`,
`get_instance_size` reports `8 * 4 = 32` bytes, not the
`(sizeof(pointer) + rhs_size) * |ptr_space| = (8 + 8) * 4 = 64` bytes the
`(pointer, rhs)` record layout assumed by `find_field_offsets` and
`issue_reduction` occupies. -/
theorem list_get_instance_size_eval :
    list_get_instance_size ⟨8⟩ (DomainM.from_rect1 ⟨0, 3⟩ 0 0 0 0) = 32 ∧
    list_get_instance_size ⟨8⟩ (DomainM.from_rect1 ⟨0, 3⟩ 0 0 0 0) ≠
      (ptrSize + 8) *
        (DomainM.from_rect1 ⟨0, 3⟩ 0 0 0 0).get_volume := by
  constructor
  · rfl
  · intro h
    simp [list_get_instance_size, DomainM.from_rect1, DomainM.get_dim,
      DomainM.get_volume, ptrSize] at h

/-- `ListReductionManager::issue_reduction` (lines 1334-1358): with
`precise = true` it issues an *indirect* copy keyed by the pointer slot — a
`sizeof(ptr_t)`-sized index field at offset 0 of the list instance — and
returns that copy's event; with `precise = false` it hits `assert(false)`
("TODO: teach the low-level runtime how to issue partial reduction
copies").  The forest's `issue_indirect_copy` is an external collaborator,
taken as a function parameter; events are opaque naturals. -/
def list_issue_reduction
    (issue_indirect_copy : DomainM → CopySrcDstField → Nat → Bool →
      List CopySrcDstField → List CopySrcDstField → Nat → Nat)
    (inst redop : Nat) (space : DomainM)
    (src_fields dst_fields : List CopySrcDstField)
    (precondition : Nat) (reduction_fold precise : Bool) :
    Except Unit Nat :=
  if precise then
    .ok (issue_indirect_copy space
      { field_id := 0, offset := 0, size := ptrSize, serdez_id := 0,
        inst := inst }
      redop reduction_fold src_fields dst_fields precondition)
  else .error ()

/-- **C9.**  `ListReductionManager::issue_reduction` with `precise = true`
returns exactly the event of the indirect copy keyed by the pointer-sized
index field at offset 0 of the list instance; with `precise = false` it
fails fatally as unimplemented and performs no copy. -/
theorem list_issue_reduction_spec
    (issue_indirect_copy : DomainM → CopySrcDstField → Nat → Bool →
      List CopySrcDstField → List CopySrcDstField → Nat → Nat)
    (inst redop : Nat) (space : DomainM)
    (src_fields dst_fields : List CopySrcDstField)
    (precondition : Nat) (reduction_fold : Bool) :
    list_issue_reduction issue_indirect_copy inst redop space src_fields
        dst_fields precondition reduction_fold true =
      Except.ok (issue_indirect_copy space
        { field_id := 0, offset := 0, size := ptrSize, serdez_id := 0,
          inst := inst }
        redop reduction_fold src_fields dst_fields precondition) ∧
    list_issue_reduction issue_indirect_copy inst redop space src_fields
        dst_fields precondition reduction_fold false = Except.error () :=
  ⟨rfl, rfl⟩

/-- `SpecializedConstraint` kinds. -/
inductive SpecializedKind where
  | normal_specialize
  | reduction_fold_specialize
  | reduction_list_specialize
  | virtual_specialize
deriving Repr, DecidableEq

/-- The dimension kinds the ordering constraint can mention; only the field
dimension `DIM_F` influences the block size. -/
inductive DimKind where
  | DIM_X
  | DIM_Y
  | DIM_Z
  | DIM_F
deriving Repr, DecidableEq

/-- What `compute_old_parameters` derives. -/
structure OldParams where
  block_size : Nat
  redop_id : Nat
deriving Repr, DecidableEq

/-- `InstanceBuilder::compute_old_parameters` (lines 1802-1872), projected
to its fatal/ok outcome and the `(block_size, redop)` it picks: NORMAL
derives AOS (`block = 1`) when the field dimension leads, SOA
(`block = |domain|`) when it trails or is absent, and asserts on an
interior field dimension; REDUCTION_FOLD picks `block = 1` and the
constraint's reduction op; REDUCTION_LIST is `assert(false)` ("TODO:
implement list reduction instances"); VIRTUAL is a fatal illegal-request
error. -/
def compute_old_parameters (kind : SpecializedKind)
    (ordering : List DimKind) (volume redop : Nat) :
    Except Unit OldParams :=
  match kind with
  | .normal_specialize =>
    match ordering with
    | [] => .ok ⟨volume, 0⟩
    | _ :: _ =>
      if ordering.head? = some .DIM_F then .ok ⟨1, 0⟩
      else if ordering.getLast? = some .DIM_F then .ok ⟨volume, 0⟩
      else if ordering.contains .DIM_F then .error ()
      else .ok ⟨volume, 0⟩
  | .reduction_fold_specialize => .ok ⟨1, redop⟩
  | .reduction_list_specialize => .error ()
  | .virtual_specialize => .error ()

/-- The flavors of manager the builder can construct. -/
inductive ManagerKind where
  | instance_manager
  | fold_reduction_manager
  | list_reduction_manager
deriving Repr, DecidableEq

/-- `InstanceBuilder::create_physical_instance` (lines 1577-1654), projected
to the kind of manager produced.  `initialize` runs
`compute_old_parameters` first (fatal for REDUCTION_LIST and VIRTUAL); an
allocator failure returns NULL (`none`); otherwise the specialization kind
selects the manager — NORMAL an `InstanceManager`, REDUCTION_FOLD a
`FoldReductionManager`, REDUCTION_LIST `assert(false)` ("TODO: implement
this"), and anything else the `default` assert. -/
def create_physical_instance (kind : SpecializedKind)
    (ordering : List DimKind) (volume redop : Nat)
    (allocation_succeeds : Bool) : Except Unit (Option ManagerKind) := do
  let _params ← compute_old_parameters kind ordering volume redop
  if !allocation_succeeds then
    return none
  match kind with
  | .normal_specialize => return some .instance_manager
  | .reduction_fold_specialize => return some .fold_reduction_manager
  | .reduction_list_specialize => .error ()
  | .virtual_specialize => .error ()

/-- **C8** counterexample: with a REDUCTION_LIST specialization and a
succeeding allocator, `create_physical_instance` aborts as unimplemented —
it does not produce a `ListReductionManager`. -/
theorem create_list_reduction_aborts :
    create_physical_instance .reduction_list_specialize [] 16 7 true =
        Except.error () ∧
    create_physical_instance .reduction_list_specialize [] 16 7 true ≠
      Except.ok (some .list_reduction_manager) := by
  exact ⟨rfl, by intro h; exact Except.noConfusion h⟩

/-- **C8** (amended).  A REDUCTION_LIST constraint makes the builder abort
fatally as unimplemented (the `assert(false)` TODOs in
`compute_old_parameters` and in the `create_physical_instance` switch),
whatever the allocator would have returned; no `ListReductionManager` is
produced on this path. -/
theorem create_list_reduction_unimplemented (ordering : List DimKind)
    (volume redop : Nat) (allocation_succeeds : Bool) :
    create_physical_instance .reduction_list_specialize ordering volume
      redop allocation_succeeds = Except.error () := rfl

end LegionModel
